import Mathlib

/-!
Verification development for the circkit/wboxkit circuit library.

The library represents computations as DAGs of operation nodes.  We give a
shallow embedding of the parts of the code that the statements below are
about:

* a graph model of circuits (`GCirc`): nodes carry an operation descriptor,
  an ordered list of incoming edges (ids of parent nodes) and a list of
  outgoing back-edges (ids of child nodes, one entry per incoming slot of the
  child), mirroring circkit/node.py and circkit/circuit.py;
* node creation (`createNode`), evaluation (`evalCirc`), the in-place
  rewrites `removeUnused` and `removeDup` from circkit/circuit.py;
* the input-creation pipeline of Operation.__call__ (`addInput`);
* the ISW masking transformer of circkit/transformers/isw.py composed with
  target-circuit evaluation (`iswRun`);
* the bytecode serializer of wboxkit/serialize.py (`serializeRaw`).

Machine integers do not occur (Python integers are unbounded); values are
modelled by an arbitrary type `V` or by a commutative ring `R`.
-/

set_option maxHeartbeats 1600000

/-- Operation descriptor attached to a node.  `name` is the operation name
(Operation._name), `symmetric` the SYMMETRIC flag, `cacheKey` an abstract
stand-in for the hashable Operation._cache_key, and `eval` the evaluation
rule (Operation.eval); RND has no pure eval rule, so this model covers the
RND-free operations. -/
structure GOp (V : Type) where
  name : String
  symmetric : Bool
  cacheKey : ℕ
  eval : List V → V

/-- A node of a circuit (circkit/node.py): identifier, operation instance,
ordered incoming edges (ids of parents, one per argument slot) and outgoing
back-edges (ids of children, one entry per incoming slot of the child that
uses this node, as built by Node.__init__). -/
structure GNode (V : Type) where
  id : ℕ
  op : GOp V
  incoming : List ℕ
  outgoing : List ℕ

/-- A circuit (circkit/circuit.py): insertion-ordered node list, ordered list
of input-node ids, ordered list of output-node ids (with multiplicity). -/
structure GCirc (V : Type) where
  nodes : List (GNode V)
  inputs : List ℕ
  outputs : List ℕ

instance (V : Type) [Inhabited V] : Inhabited (GOp V) :=
  ⟨⟨"", false, 0, fun _ => default⟩⟩

instance (V : Type) [Inhabited V] : Inhabited (GNode V) :=
  ⟨⟨0, default, [], []⟩⟩

/-- Node.is_INPUT: dispatch is by operation name. -/
def GNode.isINPUT {V : Type} (nd : GNode V) : Bool :=
  nd.op.name = "INPUT"

/-- The ids of the nodes of a circuit, in node-list order. -/
def GCirc.ids {V : Type} (c : GCirc V) : List ℕ :=
  c.nodes.map (fun nd => nd.id)

/-- The forward/backward edge agreement invariant of the spec:
for every pair of nodes u, v of the circuit,
v is in u.outgoing iff u is in v.incoming. -/
def edgeInv {V : Type} (c : GCirc V) : Prop :=
  ∀ u ∈ c.nodes, ∀ v ∈ c.nodes, (v.id ∈ u.outgoing ↔ u.id ∈ v.incoming)

/-- Structural well-formedness of a circuit, as maintained by the library:
node ids are unique; incoming edges reference nodes appearing strictly
earlier in the node list (insertion order is topological order); outgoing
back-edges reference existing nodes; INPUT nodes have no incoming edges;
`inputs` lists exactly the INPUT nodes in node-list order, and `outputs`
references existing nodes. -/
structure GWF {V : Type} [Inhabited V] (c : GCirc V) : Prop where
  idsNodup : c.ids.Nodup
  topo : ∀ p ∈ List.range c.nodes.length,
    ∀ i ∈ (c.nodes.getD p default).incoming, i ∈ (c.nodes.take p).map (fun nd => nd.id)
  outSub : ∀ u ∈ c.nodes, ∀ j ∈ u.outgoing, j ∈ c.ids
  inputNoInc : ∀ u ∈ c.nodes, u.isINPUT → u.incoming = []
  inputsSpec : c.inputs = (c.nodes.filter (fun nd => nd.isINPUT)).map (fun nd => nd.id)
  outputsSub : ∀ o ∈ c.outputs, o ∈ c.ids

/-- Node creation (Operation.__call__ step 8, Node.__init__, Circuit.add_node):
the new node gets the fresh id `newId`, its incoming list is frozen, its
outgoing list starts empty, and the new id is appended to the outgoing list
of each parent once per incoming slot that uses it.  If the operation is
INPUT the node is also registered in the input list. -/
def createNode {V : Type} (c : GCirc V) (op : GOp V) (incoming : List ℕ)
    (newId : ℕ) : GCirc V :=
  let nd : GNode V := ⟨newId, op, incoming, []⟩
  { nodes :=
      (c.nodes.map (fun u =>
        { u with outgoing :=
            u.outgoing ++ List.replicate (incoming.count u.id) newId })) ++ [nd]
    inputs := if nd.isINPUT then c.inputs ++ [newId] else c.inputs
    outputs := c.outputs }

/-- One expansion step of the reverse reachability computation of
Circuit.in_place_remove_unused_nodes: add the parents (incoming ids) of every
node currently in the set.  The source computes the same set with a BFS
queue; the queue order does not affect the resulting set. -/
def closureStep {V : Type} (c : GCirc V) (s : Finset ℕ) : Finset ℕ :=
  s ∪ (c.nodes.filter (fun nd => decide (nd.id ∈ s))).foldr
        (fun nd acc => nd.incoming.toFinset ∪ acc) ∅

/-- The set `used` of Circuit.in_place_remove_unused_nodes: the inputs
together with everything reachable backward from the outputs.  Iterating the
expansion step once per node reaches the BFS fixpoint (proved below). -/
def usedIds {V : Type} (c : GCirc V) : Finset ℕ :=
  (closureStep c)^[c.nodes.length] (c.inputs.toFinset ∪ c.outputs.toFinset)

/-- Circuit.in_place_remove_unused_nodes: if every node is used, return
unchanged (the early-return branch); otherwise keep only used nodes, in
order, and drop the removed nodes from every survivor's outgoing list.
Nodes are identified with their ids (unique under GWF). -/
def removeUnused {V : Type} (c : GCirc V) : GCirc V :=
  let used := usedIds c
  if used.card = c.nodes.length then c
  else
    { nodes := (c.nodes.filter (fun nd => decide (nd.id ∈ used))).map
        (fun nd => { nd with outgoing := nd.outgoing.filter (fun j => decide (j ∈ used)) })
      inputs := c.inputs
      outputs := c.outputs }

/-- Python comparison of a Node object against an int key of the `seen` dict
in Circuit.in_place_remove_duplicate_nodes.  The dict is populated with
128-bit integer hashes as keys (`seen[h] = node`), but the membership test is
`node in seen`, which compares the Node object with each int key.  Node does
not override __eq__, so a Node equals only itself (object identity) and never
equals an int; the comparison is always False. -/
def pyEqNodeInt (_nodeId : ℕ) (_key : ℤ) : Bool := false

/-- Python dict insertion `seen[h] = node`: overwrite an existing key,
otherwise append. -/
def dictInsert (l : List (ℤ × ℕ)) (k : ℤ) (v : ℕ) : List (ℤ × ℕ) :=
  if l.any (fun p => p.1 == k) then l.map (fun p => if p.1 == k then (k, v) else p)
  else l ++ [(k, v)]

/-- The duplicate key of a node in in_place_remove_duplicate_nodes:
(operation cache key, parent ids sorted iff the operation is symmetric). -/
def dupKey {V : Type} (nd : GNode V) : ℕ × List ℕ :=
  (nd.op.cacheKey, if nd.op.symmetric then nd.incoming.insertionSort (· ≤ ·) else nd.incoming)

/-- Replace every occurrence of an id in a list. -/
def replaceId (old new : ℕ) (l : List ℕ) : List ℕ :=
  l.map (fun x => if x = old then new else x)

/-- The re-wiring body of the duplicate branch of
in_place_remove_duplicate_nodes (proved unreachable below).  The first loop
redirects the outgoing entries of every parent of `node` from `node` to
`node0`.  The second loop computes the redirected incoming list of each child
of `node` but assigns it to `sub` — the leftover loop variable of the first
loop, i.e. the last parent of `node` — so only the last child's redirected
incoming list survives, stored on the last parent. -/
def dupSurgery {V : Type} [Inhabited V] (nodes : List (GNode V)) (node : GNode V)
    (node0Id : ℕ) : List (GNode V) :=
  let nodes1 := nodes.map (fun u =>
    if u.id ∈ node.incoming then { u with outgoing := replaceId node.id node0Id u.outgoing }
    else u)
  match node.outgoing.getLast?, node.incoming.getLast? with
  | some lastOut, some lastSub =>
      let outNode := (nodes1.find? (fun u => u.id == lastOut)).getD default
      nodes1.map (fun u =>
        if u.id == lastSub then { u with incoming := replaceId node.id node0Id outNode.incoming }
        else u)
  | _, _ => nodes1

/-- Intermediate state of in_place_remove_duplicate_nodes: current node list
(the duplicate branch mutates node fields), the `seen` dict (128-bit hash to
node), and the list of kept node positions (`new_order`). -/
structure DupSt (V : Type) where
  nodes : List (GNode V)
  seen : List (ℤ × ℕ)
  newOrder : List ℕ

/-- One iteration of the scan of in_place_remove_duplicate_nodes, at node
position p.  The hash combination of the duplicate key is abstracted by the
parameter `pyhash` (our results hold for every hash function). -/
def removeDupStep {V : Type} [Inhabited V] (pyhash : ℕ × List ℕ → ℤ)
    (st : DupSt V) (p : ℕ) : DupSt V :=
  let node := st.nodes.getD p default
  let h := pyhash (dupKey node)
  if st.seen.any (fun kv => pyEqNodeInt node.id kv.1) then
    let node0Id := ((st.seen.find? (fun kv => pyEqNodeInt node.id kv.1)).map
      (fun kv => kv.2)).getD 0
    { st with nodes := dupSurgery st.nodes node node0Id }
  else
    { st with seen := dictInsert st.seen h node.id, newOrder := st.newOrder ++ [p] }

/-- Circuit.in_place_remove_duplicate_nodes: scan the nodes in order,
recording each node in `seen` under its hashed duplicate key, and keep the
nodes recorded in new_order. -/
def removeDup {V : Type} [Inhabited V] (pyhash : ℕ × List ℕ → ℤ) (c : GCirc V) : GCirc V :=
  let st := (List.range c.nodes.length).foldl (removeDupStep pyhash) ⟨c.nodes, [], []⟩
  { c with nodes := st.newOrder.map (fun p => st.nodes.getD p default) }

/-- Lookup in the evaluation memory (a dict node to value, keyed by id). -/
def memGet {V : Type} (mem : List (ℕ × V)) (i : ℕ) : Option V :=
  (mem.find? (fun p => p.1 == i)).map (fun p => p.2)

/-- Value of a non-input node: operation.eval_with_node applied to the
memorised values of the incoming nodes (Circuit.evaluate inner loop). -/
def evalNodeVal {V : Type} [Inhabited V] (mem : List (ℕ × V)) (nd : GNode V) : V :=
  nd.op.eval (nd.incoming.map (fun i => (memGet mem i).getD default))

/-- One step of the evaluation loop of Circuit.evaluate: INPUT nodes are
skipped (their values are preloaded), every other node stores the value of
its operation on the parents' values. -/
def evalStep {V : Type} [Inhabited V] (mem : List (ℕ × V)) (nd : GNode V) :
    List (ℕ × V) :=
  if nd.isINPUT then mem else mem ++ [(nd.id, evalNodeVal mem nd)]

/-- Circuit.evaluate: check the input arity, preload the memory with the
input values (INPUT.eval is the identity), evaluate every non-input node in
topological (= list) order, and read off the outputs.  Conversions by the
constant manager are outside this model (convert flags off). -/
def evalCirc {V : Type} [Inhabited V] (c : GCirc V) (input : List V) :
    Option (List V) :=
  if input.length = c.inputs.length then
    let mem := c.nodes.foldl evalStep (c.inputs.zip input)
    some (c.outputs.map (fun o => (memGet mem o).getD default))
  else none

/-- State of a circuit as seen by the INPUT-creation pipeline
(Operation.__call__ together with Circuit.Operations.INPUT and
Circuit._register_input_node): number of created nodes (ids are consecutive),
the set _input_names in insertion order, the registered input ids, the node
cache (when CACHE_NODES is set), and the CACHE_NODES flag of the circuit
flavor. -/
structure InCirc where
  nodeCount : ℕ
  inputNames : List String
  inputs : List ℕ
  nodesCache : List ((List ℕ × String × String) × ℕ)
  cacheNodes : Bool
deriving DecidableEq

/-- Node cache key of an INPUT(name) call (Operation.__call__ step 6): the
tuple of incoming ids (empty) paired with the operation cache key, which
consists of the operation name INPUT and its single parameter name. -/
def inputCacheKey (name : String) : List ℕ × String × String :=
  ([], "INPUT", name)

/-- The circuit state produced by a successful INPUT node creation: node
count advanced, name recorded in _input_names, node registered as input,
and — when CACHE_NODES is on — the node stored in the node cache. -/
def createdInput (c : InCirc) (name : String) : InCirc :=
  { nodeCount := c.nodeCount + 1
    inputNames := c.inputNames ++ [name]
    inputs := c.inputs ++ [c.nodeCount]
    nodesCache :=
      if c.cacheNodes then c.nodesCache ++ [(inputCacheKey name, c.nodeCount)]
      else c.nodesCache
    cacheNodes := c.cacheNodes }

/-- Operation.__call__ applied to INPUT(name) with no incoming nodes:
the arity check passes, there is nothing to normalise, constant folding is
skipped (INPUT is not PRECOMPUTABLE), then — in this order — the node cache
is probed (returning the cached node without any further checks), the
before_create_node hook checks the name against _input_names and raises a
KeyError on a repeated name, and finally the node is created, registered and
put in the cache. -/
def addInput (c : InCirc) (name : String) : Except String (InCirc × ℕ) :=
  let probe : Option ℕ :=
    if c.cacheNodes then
      (c.nodesCache.find? (fun p => p.1 == inputCacheKey name)).map (fun p => p.2)
    else none
  match probe with
  | some nid => .ok (c, nid)
  | none =>
    if name ∈ c.inputNames then
      .error "KeyError: repeated input name"
    else
      .ok (createdInput c name, c.nodeCount)

/-- A Python sequence that is either a tuple or a list.  Slicing preserves
the kind; only lists have an append method. -/
inductive PySeq (α : Type) where
  | tuple (xs : List α)
  | list (xs : List α)

/-- Python slicing seq[::-1]: reverses, preserving the sequence kind
(slicing a tuple yields a tuple). -/
def pyRevSlice {α : Type} : PySeq α → PySeq α
  | .tuple xs => .tuple xs.reverse
  | .list xs => .list xs.reverse

/-- Python attribute call seq.append(x): list has an append method; tuple
does not, so the attribute access raises AttributeError. -/
def pyAppend {α : Type} : PySeq α → α → Except String (PySeq α)
  | .tuple _, _ => .error "AttributeError: tuple object has no attribute append"
  | .list xs, x => .ok (.list (xs ++ [x]))

/-- Circuit.compose (circuit.py 690-706).  The star-parameter `*circuits`
always binds a tuple; the body starts with `circuits = circuits[::-1]`
followed by `circuits.append(self)`.  The remaining body (cloning, reapply
chaining, output registration) is never reached, because the append on a
tuple raises first (theorem below), so it is not modelled further. -/
def composeModel {α : Type} (self : α) (circuits : List α) : Except String Unit := do
  let cs := pyRevSlice (PySeq.tuple circuits)
  let _ ← pyAppend cs self
  return ()

/-- Attribute names available on an Operation instance in operation.py: the
slots and class attributes of Operation plus the _circuit / _circuit_class
attributes installed on the dynamically created subclasses (parameters add
their own names per operation, none of which is called circuit). -/
def operationAttrNames : List String :=
  ["_circuit", "_circuit_class", "_param_descriptions", "_name",
   "SYMMETRIC", "PRECOMPUTABLE", "STR_LIMIT", "n_inputs", "n_outputs"]

/-- Python hasattr for an Operation instance. -/
def operationHasAttr (attr : String) : Bool :=
  operationAttrNames.contains attr

/-- The constant-folding branch of Operation.__call__ (operation.py 304-312),
taken when PRECOMPUTE_CONSTANT_OPERATIONS is set, the operation is
PRECOMPUTABLE and all (at least one) incoming nodes are CONST: it computes
value = self.eval(unwrapped constant values) and then executes
return self.circuit.add_const(value).  Operation instances expose _circuit
but no attribute circuit, so the final attribute access raises
AttributeError before any CONST node is produced.  (The ok branch stands for
the intended add_const result; it is unreachable.) -/
def precomputeConstBranch {V : Type} (evalf : List V → V) (constVals : List V) :
    Except String V :=
  let value := evalf constVals
  if operationHasAttr "circuit" then .ok value
  else .error "AttributeError: Operation object has no attribute circuit"

/-- Parameter descriptors declared by the boolean LUT
(BooleanCircuit.Operations.LUT, boolean.py 40-42): the class body contains
only an eval method and no Param annotations, so the collected
_param_descriptions mapping is empty. -/
def lutParamNames : List String := []

/-- The parameter-count check of Operation.__init__ (operation.py 255-260):
passing more positional plus keyword parameter values than the operation
declares raises TypeError. -/
def operationInitCheck (paramNames : List String) (nValues nKValues : ℕ) :
    Except String Unit :=
  if nValues + nKValues > paramNames.length then
    .error "TypeError: passed more parameters than required"
  else .ok ()

/-- Assoc-list read, returning an Option (Python dict access). -/
def lookupA (l : List (ℕ × ℕ)) (k : ℕ) : Option ℕ :=
  (l.find? (fun p => p.1 == k)).map (fun p => p.2)

/-- Assoc-list read with a default (Python defaultdict(int) read). -/
def lookupD (l : List (ℕ × ℕ)) (k d : ℕ) : ℕ :=
  (lookupA l k).getD d

/-- Assoc-list write (Python dict item assignment). -/
def setA (l : List (ℕ × ℕ)) (k v : ℕ) : List (ℕ × ℕ) :=
  if l.any (fun p => p.1 == k) then l.map (fun p => if p.1 == k then (k, v) else p)
  else l ++ [(k, v)]

/-- State of the wboxkit serializer (Serializer/RawSerializer,
wboxkit/serialize.py): the free-cell stack, the node-to-cell map bit_id, the
RAM high-water mark ram_size, the parent use counters n_used, and the emitted
code (one record per instruction: opcode, destination cell, source cells).
The two final fields are ghost instrumentation used only to state the
liveness invariant: `live` is the set of cells currently allocated to an
unfreed node, and `peak` the largest size `live` ever had right after an
allocation; they influence no real field. -/
structure SerSt where
  free : List ℕ
  bitId : List (ℕ × ℕ)
  ramSize : ℕ
  nUsed : List (ℕ × ℕ)
  code : List (ℕ × ℕ × List ℕ)
  live : Finset ℕ
  peak : ℕ

/-- Serializer.before_transform: empty free list, empty maps, zero RAM. -/
def initSerSt : SerSt := ⟨[], [], 0, [], [], ∅, 0⟩

/-- Serializer.alloc: if the free list is empty, push a brand-new cell
(ram_size) and grow the RAM; then pop the last free cell (Python list.pop)
and map the node to it.  Ghost: the cell becomes live; the peak is updated. -/
def serAlloc (st : SerSt) (nid : ℕ) : SerSt :=
  let free1 := if st.free.isEmpty then st.free ++ [st.ramSize] else st.free
  let ram1 := if st.free.isEmpty then st.ramSize + 1 else st.ramSize
  let cell := free1.getLast?.getD 0
  let live1 := insert cell st.live
  { st with
    free := free1.dropLast
    ramSize := ram1
    bitId := st.bitId ++ [(nid, cell)]
    live := live1
    peak := max st.peak live1.card }

/-- Number of outgoing edges of the node with the given id (len(arg.outgoing)). -/
def outdeg {V : Type} (c : GCirc V) (v : ℕ) : ℕ :=
  ((c.nodes.find? (fun nd => nd.id == v)).map (fun nd => nd.outgoing.length)).getD 0

/-- Node.is_OUTPUT: whether the node is registered as an output. -/
def isOutputId {V : Type} (c : GCirc V) (v : ℕ) : Bool :=
  c.outputs.contains v

/-- The per-argument bookkeeping of Serializer.visit_generic together with
RawSerializer.on_free: increment n_used[arg] (failure of the
assert n_used <= len(outgoing) yields none); when the count reaches
len(arg.outgoing): output nodes are never freed, otherwise the cell of arg
returns to the free list (a missing bit_id entry — the double-free assert —
yields none).  Ghost: the freed cell leaves the live set. -/
def serUseArg {V : Type} (c : GCirc V) (st : SerSt) (argId : ℕ) : Option SerSt :=
  let u := lookupD st.nUsed argId 0 + 1
  if u ≤ outdeg c argId then
    let st1 := { st with nUsed := setA st.nUsed argId u }
    if u = outdeg c argId then
      if isOutputId c argId then some st1
      else
        match lookupA st1.bitId argId with
        | none => none
        | some cell =>
            some { st1 with free := st1.free ++ [cell], live := st1.live.erase cell }
    else some st1
  else none

/-- RawSerializer.opmap, verbatim: the dict maps the names XOR, AND, OR, NOT
and RANDOM to the opcodes 1..5. -/
def opmap : List (String × ℕ) :=
  [("XOR", 1), ("AND", 2), ("OR", 3), ("NOT", 4), ("RANDOM", 5)]

/-- Dict lookup in opmap; a missing operation name raises KeyError (none). -/
def opmapLookup (s : String) : Option ℕ :=
  (opmap.find? (fun p => p.1 == s)).map (fun p => p.2)

/-- Visit of one node in circuit order (Serializer.visit_INPUT /
visit_generic with RawSerializer.serialize_bit): allocate a cell; for
non-input nodes look up the opcode of the operation name, emit the
instruction (opcode, destination cell, source cells) and run the
per-argument bookkeeping over the incoming list in order. -/
def serVisit {V : Type} (c : GCirc V) (st : SerSt) (nd : GNode V) : Option SerSt :=
  if nd.isINPUT then some (serAlloc st nd.id)
  else
    let st1 := serAlloc st nd.id
    match opmapLookup nd.op.name with
    | none => none
    | some opc =>
      let dest := lookupD st1.bitId nd.id 0
      let srcs := nd.incoming.map (fun i => lookupD st1.bitId i 0)
      let st2 := { st1 with code := st1.code ++ [(opc, dest, srcs)] }
      List.foldlM (serUseArg c) st2 nd.incoming

/-- Result of RawSerializer.serialize: the header info fields (input count,
output count, opcode count, ram_size), the input and output cell addresses,
the code, and the ghost peak-live count. -/
structure SerRes where
  nInputs : ℕ
  nOutputs : ℕ
  nOpcodes : ℕ
  ramSize : ℕ
  peak : ℕ
  inputAddr : List ℕ
  outputAddr : List ℕ
  code : List (ℕ × ℕ × List ℕ)

/-- RawSerializer.serialize: visit every node in order, then
(after_transform) read the input and output cell addresses from bit_id and
check the regression asserts len(set(input_addr)) == n_inputs and
len(set(output_addr)) == n_outputs; an assert failure yields none.  The byte
packing of the header and code is not modelled (the claims are about the
opcode values, instruction count and addresses). -/
def serializeRaw {V : Type} (c : GCirc V) : Option SerRes :=
  match List.foldlM (serVisit c) initSerSt c.nodes with
  | none => none
  | some st =>
    match c.inputs.mapM (fun i => lookupA st.bitId i),
          c.outputs.mapM (fun o => lookupA st.bitId o) with
    | some inAddr, some outAddr =>
      if inAddr.dedup.length = c.inputs.length ∧
         outAddr.dedup.length = c.outputs.length then
        some ⟨c.inputs.length, c.outputs.length, st.code.length, st.ramSize, st.peak,
              inAddr, outAddr, st.code⟩
      else none
    | _, _ => none

/-- Modelled from the spec: execution of one serialized instruction.  The
executor (the C side reading the emitted bytecode) is not part of this
repository; the spec fixes the instruction layout opcode, dest, sources and
the opcode meanings 1 XOR, 2 AND, 3 OR, 4 NOT (5 RND draws randomness; no
such instruction is ever emitted, see claim C6, and it is left as a no-op
write of 0).  Memory is the RAM cell array. -/
def execInstr (mem : List ℕ) (ins : ℕ × ℕ × List ℕ) : List ℕ :=
  let srcs := ins.2.2.map (fun a => mem.getD a 0)
  let v :=
    if ins.1 = 1 then srcs.getD 0 0 ^^^ srcs.getD 1 0
    else if ins.1 = 2 then srcs.getD 0 0 &&& srcs.getD 1 0
    else if ins.1 = 3 then srcs.getD 0 0 ||| srcs.getD 1 0
    else if ins.1 = 4 then 1 ^^^ srcs.getD 0 0
    else 0
  mem.set ins.2.1 v

/-- Modelled from the spec: execution of a serialized program on an initial
RAM state. -/
def execProg (code : List (ℕ × ℕ × List ℕ)) (mem : List ℕ) : List ℕ :=
  code.foldl execInstr mem

/-- Source gates of the circuit fragment handled by the ISW transformer
(IswOnArithmetic: visit_INPUT, visit_CONST, visit_ADD = visit_XOR,
visit_MUL = visit_AND).  INPUT k takes the k-th circuit input; ADD and MUL
reference positions of earlier gates in the list. -/
inductive AGate (R : Type) where
  | INPUT (k : ℕ)
  | CONST (c : R)
  | ADD (i j : ℕ)
  | MUL (i j : ℕ)

/-- One step of Circuit.evaluate on the source circuit: INPUT takes the
given input value, CONST its value, ADD and MUL apply the ring operations of
ArithmeticCircuit (ADD.eval a+b, MUL.eval a*b); for boolean circuits the same
operations are XOR and AND, i.e. the ring operations of GF(2). -/
def evalAStep {R : Type} [CommRing R] (inputs : ℕ → R) (vals : List R)
    (g : AGate R) : List R :=
  match g with
  | .INPUT k => vals ++ [inputs k]
  | .CONST cv => vals ++ [cv]
  | .ADD i j => vals ++ [vals.getD i 0 + vals.getD j 0]
  | .MUL i j => vals ++ [vals.getD i 0 * vals.getD j 0]

/-- Circuit.evaluate on the source circuit: the value of every node, in
topological (= list) order. -/
def evalA {R : Type} [CommRing R] (gs : List (AGate R)) (inputs : ℕ → R) : List R :=
  gs.foldl (evalAStep inputs) []

/-- Position, in the RND-creation order of visit_MUL (outer loop i ascending,
inner loop j from i+1), of the random node drawn for the pair i < j. -/
def pairIdx (n i j : ℕ) : ℕ :=
  i * (n - 1) - i * (i - 1) / 2 + (j - i - 1)

/-- The matrix r of visit_MUL, as evaluated values: for i < j, r[i][j] is the
fresh RND node of the pair (its value under the assignment `rnd`, with `s`
RND nodes created before this gadget); for i > j it is
r[j][i] + x[j]*y[i] + x[i]*y[j], exactly as assigned in the source
(the diagonal is initialised to 0 and never used). -/
def iswR {R : Type} [CommRing R] (n : ℕ) (x y : List R) (rnd : ℕ → R)
    (s i j : ℕ) : R :=
  if i < j then rnd (s + pairIdx n i j)
  else rnd (s + pairIdx n j i) + x.getD j 0 * y.getD i 0 + x.getD i 0 * y.getD j 0

/-- Output share i of the ISW multiplication gadget: start from
z[i] = x[i]*y[i] and subtract r[i][j] for every j ≠ i, with j ascending
(the loop `for j in range(n): if i != j: z[i] = z[i] - r[i][j]`). -/
def iswZ {R : Type} [CommRing R] (n : ℕ) (x y : List R) (rnd : ℕ → R)
    (s i : ℕ) : R :=
  (List.range n).foldl
    (fun acc j => if i ≠ j then acc - iswR n x y rnd s i j else acc)
    (x.getD i 0 * y.getD i 0)

/-- One step of the ISW transformer (IswOnArithmetic with n = order + 1
shares), composed with evaluation of the target nodes it creates:

* the first component of the accumulator maps every processed source node to
  the list of values of its n shares, the second counts the RND nodes created
  so far;
* `tin` assigns values to the fresh input shares (source input k yields the
  target inputs numbered n*k .. n*k+n-1, named k_share0 .. k_share(n-1));
* `rnd` assigns a value to every RND node, numbered in creation order — the
  correctness statement quantifies over all such assignments;
* visit_INPUT returns the n fresh input shares;
* visit_ADD adds share-wise (Array.__add__ is element-wise);
* visit_CONST draws order = n-1 fresh randoms r and returns
  r0, .., r(n-2), value + r0 + .. + r(n-2) (left-nested additions);
* visit_MUL draws one RND per pair i < j and returns the gadget shares. -/
def iswStep {R : Type} [CommRing R] (n : ℕ) (tin rnd : ℕ → R)
    (acc : List (List R) × ℕ) (g : AGate R) : List (List R) × ℕ :=
  match g with
  | .INPUT k =>
      (acc.1 ++ [(List.range n).map (fun i => tin (n * k + i))], acc.2)
  | .CONST cv =>
      let rs := (List.range (n - 1)).map (fun i => rnd (acc.2 + i))
      (acc.1 ++ [rs ++ [rs.foldl (fun a b => a + b) cv]], acc.2 + (n - 1))
  | .ADD i j =>
      (acc.1 ++ [List.zipWith (fun a b => a + b) (acc.1.getD i []) (acc.1.getD j [])],
       acc.2)
  | .MUL i j =>
      (acc.1 ++ [(List.range n).map (iswZ n (acc.1.getD i []) (acc.1.getD j []) rnd acc.2)],
       acc.2 + n * (n - 1) / 2)

/-- The ISW transformer run over a whole source circuit, composed with
evaluation under the input-share assignment `tin` and the RND assignment
`rnd`: share values of every source node, and the total number of RND nodes
created. -/
def iswRun {R : Type} [CommRing R] (n : ℕ) (tin rnd : ℕ → R)
    (gs : List (AGate R)) : List (List R) × ℕ :=
  gs.foldl (iswStep n tin rnd) ([], 0)

/-- References of a gate are bounded by p (gate positions are earlier). -/
def AGate.refsLt {R : Type} : AGate R → ℕ → Prop
  | .INPUT _, _ => True
  | .CONST _, _ => True
  | .ADD i j, p => i < p ∧ j < p
  | .MUL i j, p => i < p ∧ j < p

instance {R : Type} (g : AGate R) (p : ℕ) : Decidable (g.refsLt p) := by
  cases g <;> simp only [AGate.refsLt] <;> infer_instance

/-- A source circuit for the ISW transformer: gate list plus output
positions. -/
structure ACirc (R : Type) where
  gates : List (AGate R)
  outputs : List ℕ

/-- Well-formedness of a source circuit: gates reference earlier positions
only, outputs reference existing gates. -/
def AWF {R : Type} (c : ACirc R) : Prop :=
  (∀ p ∈ List.range c.gates.length, (c.gates.getD p (.INPUT 0)).refsLt p) ∧
  (∀ o ∈ c.outputs, o < c.gates.length)

instance {R : Type} (c : ACirc R) : Decidable (AWF c) := by
  unfold AWF
  infer_instance

/-- Boolean operation descriptors (BooleanCircuit.Operations): names,
symmetry flags, abstract cache keys and eval rules from boolean.py.  The
eval of RND draws fresh randomness in the source and has no pure model; it
is never invoked in the claims below (the serializer does not evaluate), so
it is rendered as the constant 0. -/
def bINPUT : GOp ℕ := ⟨"INPUT", false, 0, fun vs => vs.getD 0 0⟩

def bCONST (v : ℕ) : GOp ℕ := ⟨"CONST", false, 100 + v, fun _ => v⟩

def bAND : GOp ℕ := ⟨"AND", true, 1, fun vs => vs.getD 0 0 &&& vs.getD 1 0⟩

def bOR : GOp ℕ := ⟨"OR", true, 2, fun vs => vs.getD 0 0 ||| vs.getD 1 0⟩

def bXOR : GOp ℕ := ⟨"XOR", true, 3, fun vs => vs.getD 0 0 ^^^ vs.getD 1 0⟩

def bNOT : GOp ℕ := ⟨"NOT", false, 4, fun vs => 1 ^^^ vs.getD 0 0⟩

def bRND : GOp ℕ := ⟨"RND", false, 5, fun _ => 0⟩

/-- The concrete circuit y = (a AND b) XOR c of the spec scenario: inputs
a, b, c (ids 0, 1, 2), t = AND(a, b) (id 3), y = XOR(t, c) (id 4), output y. -/
def andXorCirc : GCirc ℕ :=
  ⟨[⟨0, bINPUT, [], [3]⟩, ⟨1, bINPUT, [], [3]⟩, ⟨2, bINPUT, [], [4]⟩,
    ⟨3, bAND, [0, 1], [4]⟩, ⟨4, bXOR, [3, 2], []⟩],
   [0, 1, 2], [4]⟩

/-- A boolean circuit consisting of a single RND node, registered as
output. -/
def rndCirc : GCirc ℕ := ⟨[⟨0, bRND, [], []⟩], [], [0]⟩

/-- A circuit with two duplicate XOR nodes: both XOR(a, b) with the same
operation and the same parents, hence the same duplicate key. -/
def dupCirc : GCirc ℕ :=
  ⟨[⟨0, bINPUT, [], [2, 3]⟩, ⟨1, bINPUT, [], [2, 3]⟩,
    ⟨2, bXOR, [0, 1], []⟩, ⟨3, bXOR, [0, 1], []⟩],
   [0, 1], [2, 3]⟩

/-- A circuit with an unused node: input a (id 0, also the output) and an
unused NOT a (id 1). -/
def unusedCirc : GCirc ℕ :=
  ⟨[⟨0, bINPUT, [], [1]⟩, ⟨1, bNOT, [0], []⟩], [0], [0]⟩

/-- The source circuit z = MUL(x0, x1) with output z, used for the ISW
instances: over the integers for the counterexample, over GF(2) for the
witness. -/
def mulGatesZ : List (AGate ℤ) := [.INPUT 0, .INPUT 1, .MUL 0 1]

def mulGates2 : List (AGate (ZMod 2)) := [.INPUT 0, .INPUT 1, .MUL 0 1]

def mulCirc2 : ACirc (ZMod 2) := ⟨mulGates2, [2]⟩

/-- Input shares for the ISW instances at order 1 (n = 2): every input value
1 is split into the shares 1, 0. -/
def cexTin : ℕ → ℤ := fun j => if j % 2 = 0 then 1 else 0

def cexTin2 : ℕ → ZMod 2 := fun j => if j % 2 = 0 then 1 else 0

/-- The RND assignment of the counterexample: every random node reads 1. -/
def cexRnd : ℕ → ℤ := fun _ => 1

def cexRnd2 : ℕ → ZMod 2 := fun _ => 1

def cexInputs : ℕ → ℤ := fun _ => 1

def cexInputs2 : ℕ → ZMod 2 := fun _ => 1

/-- The optimized-circuit state right after a successful add_input("x") on a
fresh circuit with node caching enabled (OptBooleanCircuit flavor). -/
def optAfterX : InCirc := ⟨1, ["x"], [0], [(inputCacheKey "x", 0)], true⟩

/-- Number of uses of the node id v as an argument among the given nodes
(one use per incoming slot, matching the one outgoing entry per slot). -/
def usesIn {V : Type} (nds : List (GNode V)) (v : ℕ) : ℕ :=
  (nds.map (fun nd => nd.incoming.count v)).sum

/-- A node has been freed by the serializer once its use counter u has
reached its outgoing degree — unless it is an output (outputs are never
freed) or has no outgoing edge (it is never used, hence never freed). -/
def freedP {V : Type} (c : GCirc V) (u : ℕ → ℕ) (v : ℕ) : Prop :=
  isOutputId c v = false ∧ 0 < outdeg c v ∧ u v = outdeg c v

/-- Invariant of the serializer state after allocating the nodes `alloced`
with current use counters `u`: the free list has no duplicates and is
disjoint from the live cells; free and live cells together are exactly the
RAM; the peak always equals ram_size; the n_used counters realize u; every
allocated node has a cell and only allocated nodes do; the cell of every
unfreed allocated node is live, distinct unfreed nodes hold distinct cells,
and every live cell belongs to an unfreed allocated node. -/
structure SerInv {V : Type} (c : GCirc V) (alloced : List (GNode V))
    (u : ℕ → ℕ) (st : SerSt) : Prop where
  freeNodup : st.free.Nodup
  freeDisj : ∀ x ∈ st.free, x ∉ st.live
  unionRam : st.live ∪ st.free.toFinset = Finset.range st.ramSize
  peakRam : st.peak = st.ramSize
  usedEq : ∀ k, lookupD st.nUsed k 0 = u k
  bitSome : ∀ nd ∈ alloced, ∃ cell, lookupA st.bitId nd.id = some cell
  bitNone : ∀ k, (∀ nd ∈ alloced, nd.id ≠ k) → lookupA st.bitId k = none
  liveCells : ∀ nd ∈ alloced, ¬freedP c u nd.id →
    ∀ cell, lookupA st.bitId nd.id = some cell → cell ∈ st.live
  inj : ∀ nd1 ∈ alloced, ∀ nd2 ∈ alloced, nd1.id ≠ nd2.id →
    ¬freedP c u nd1.id → ¬freedP c u nd2.id →
    lookupA st.bitId nd1.id ≠ lookupA st.bitId nd2.id
  liveOnly : ∀ cell ∈ st.live, ∃ nd ∈ alloced, ¬freedP c u nd.id ∧
    lookupA st.bitId nd.id = some cell

/-- Counters of nodes not yet allocated are still zero (no later node is
ever used as an argument before being visited). -/
def unalloc0 {V : Type} (A : List (GNode V)) (u : ℕ → ℕ) : Prop :=
  ∀ k, (∀ x ∈ A, x.id ≠ k) → u k = 0

/-- The serialization result reported for the circuit y = (a AND b) XOR c:
3 inputs, 1 output, 2 instructions, ram_size 4, peak 4, input cells 0 1 2,
output cell 1, and the code AND (opcode 2) then XOR (opcode 1). -/
def serResAX : SerRes :=
  ⟨3, 1, 2, 4, 4, [0, 1, 2], [1], [(2, 3, [0, 1]), (1, 1, [3, 2])]⟩

/-- Weaker consequence of GWF.topo: incoming edges reference existing nodes. -/
theorem GWF.incSub {V : Type} [Inhabited V] {c : GCirc V} (w : GWF c) :
    ∀ u ∈ c.nodes, ∀ i ∈ u.incoming, i ∈ c.ids := by
  intro u hu i hi
  rcases List.mem_iff_get.mp hu with ⟨⟨p, hp⟩, rfl⟩
  have hp' : p ∈ List.range c.nodes.length := List.mem_range.mpr hp
  have := w.topo p hp' i
    (by simpa [List.getD_eq_getElem?_getD, List.getElem?_eq_getElem hp] using hi)
  rcases List.mem_map.mp this with ⟨nd, hnd, rfl⟩
  exact List.mem_map.mpr ⟨nd, List.mem_of_mem_take hnd, rfl⟩

theorem removeDupStep_nodes {V : Type} [Inhabited V] (pyhash : ℕ × List ℕ → ℤ)
    (st : DupSt V) (p : ℕ) :
    (removeDupStep pyhash st p).nodes = st.nodes ∧
    (removeDupStep pyhash st p).newOrder = st.newOrder ++ [p] := by
  unfold removeDupStep
  simp [pyEqNodeInt]

theorem removeDup_foldl {V : Type} [Inhabited V] (pyhash : ℕ × List ℕ → ℤ)
    (l : List ℕ) (st : DupSt V) :
    (l.foldl (removeDupStep pyhash) st).nodes = st.nodes ∧
    (l.foldl (removeDupStep pyhash) st).newOrder = st.newOrder ++ l := by
  induction l generalizing st with
  | nil => simp
  | cons p l ih =>
    have h := removeDupStep_nodes pyhash st p
    have h2 := ih (removeDupStep pyhash st p)
    simp only [List.foldl_cons]
    refine ⟨h2.1.trans h.1, h2.2.trans ?_⟩
    rw [h.2]
    simp

theorem getD_range_map {α : Type} [Inhabited α] (l : List α) :
    (List.range l.length).map (fun p => l.getD p default) = l := by
  apply List.ext_get
  · simp
  · intro i h1 h2
    simp [List.getD_eq_getElem?_getD, List.getElem?_eq_getElem h2]

/-- Because the membership test `node in seen` compares Node objects against
int keys, it never succeeds: in_place_remove_duplicate_nodes leaves the
circuit unchanged, for every hash function. -/
theorem removeDup_eq {V : Type} [Inhabited V] (pyhash : ℕ × List ℕ → ℤ) (c : GCirc V) :
    removeDup pyhash c = c := by
  have h := removeDup_foldl pyhash (List.range c.nodes.length) (⟨c.nodes, [], []⟩ : DupSt V)
  simp only [removeDup]
  rw [h.1, h.2]
  simp only [List.nil_append]
  rw [getD_range_map]

theorem edgeInv_createNode {V : Type} [Inhabited V] {c : GCirc V} (w : GWF c)
    (hinv : edgeInv c) (op : GOp V) (incoming : List ℕ) (newId : ℕ)
    (hfresh : newId ∉ c.ids) (hincm : ∀ i ∈ incoming, i ∈ c.ids) :
    edgeInv (createNode c op incoming newId) := by
  intro u' hu' v' hv'
  simp only [createNode, List.mem_append, List.mem_map, List.mem_singleton] at hu' hv'
  rcases hu' with ⟨u, hu, rfl⟩ | rfl
  · rcases hv' with ⟨v, hv, rfl⟩ | rfl
    · -- both nodes pre-existing: only the appended replicate block is new
      have hvid : v.id ∈ c.ids := List.mem_map.mpr ⟨v, hv, rfl⟩
      have hvne : v.id ≠ newId := fun h => hfresh (h ▸ hvid)
      simp only [List.mem_append, List.mem_replicate]
      constructor
      · rintro (h | ⟨-, h⟩)
        · exact (hinv u hu v hv).mp h
        · exact absurd h hvne
      · intro h
        exact Or.inl ((hinv u hu v hv).mpr h)
    · -- v is the new node: its id occurs in u.outgoing iff u is a parent
      have hnew : newId ∉ u.outgoing := fun h =>
        hfresh (w.outSub u hu newId h)
      simp only [List.mem_append, List.mem_replicate]
      constructor
      · rintro (h | ⟨h, -⟩)
        · exact absurd h hnew
        · exact List.count_pos_iff.mp (Nat.pos_of_ne_zero h)
      · intro h
        exact Or.inr ⟨(List.count_pos_iff.mpr h).ne', trivial⟩
  · rcases hv' with ⟨v, hv, rfl⟩ | rfl
    · -- u is the new node: it has no outgoing yet, and is nobody's parent
      simp only [List.not_mem_nil, false_iff]
      exact fun h => hfresh (w.incSub v hv newId h)
    · simp only [List.not_mem_nil, false_iff]
      exact fun h => hfresh (hincm newId h)

theorem edgeInv_removeUnused {V : Type} (c : GCirc V) (hinv : edgeInv c) :
    edgeInv (removeUnused c) := by
  unfold removeUnused
  by_cases h : (usedIds c).card = c.nodes.length
  · simpa [h] using hinv
  · simp only [if_neg h]
    intro u' hu' v' hv'
    simp only [List.mem_map, List.mem_filter] at hu' hv'
    rcases hu' with ⟨u, ⟨hu, hu_used⟩, rfl⟩
    rcases hv' with ⟨v, ⟨hv, hv_used⟩, rfl⟩
    simp only [List.mem_filter]
    constructor
    · rintro ⟨h1, -⟩
      exact (hinv u hu v hv).mp h1
    · intro h1
      exact ⟨(hinv u hu v hv).mpr h1, hv_used⟩

theorem iterate_grow {f : Finset ℕ → Finset ℕ} (hgrow : ∀ s, s ⊆ f s)
    (init : Finset ℕ) (k : ℕ) : f^[k] init ⊆ f^[k + 1] init := by
  rw [Function.iterate_succ_apply']
  exact hgrow _

theorem iterate_init_subset {f : Finset ℕ → Finset ℕ} (hgrow : ∀ s, s ⊆ f s)
    (init : Finset ℕ) (k : ℕ) : init ⊆ f^[k] init := by
  induction k with
  | zero => simp
  | succ k ih => exact ih.trans (iterate_grow hgrow init k)

theorem iterate_bounded {f : Finset ℕ → Finset ℕ} {U : Finset ℕ}
    (hbound : ∀ s, f s ⊆ s ∪ U) (init : Finset ℕ) (k : ℕ) :
    f^[k] init ⊆ init ∪ U := by
  induction k with
  | zero => simp [Finset.subset_union_left]
  | succ k ih =>
    rw [Function.iterate_succ_apply']
    exact (hbound _).trans (Finset.union_subset ih Finset.subset_union_right)

/-- A growing set map bounded inside a finite universe reaches a fixpoint
after at most as many steps as the universe has elements. -/
theorem iterate_fixpoint {f : Finset ℕ → Finset ℕ} {U : Finset ℕ}
    (hgrow : ∀ s, s ⊆ f s) (hbound : ∀ s, f s ⊆ s ∪ U)
    (init : Finset ℕ) (n : ℕ) (hn : U.card ≤ n) :
    f (f^[n] init) = f^[n] init := by
  by_cases hstab : ∃ k, k < n ∧ f^[k + 1] init = f^[k] init
  · obtain ⟨k, hk, heq⟩ := hstab
    have hconst : ∀ m, k ≤ m → f^[m] init = f^[k] init := by
      intro m hm
      induction m, hm using Nat.le_induction with
      | base => rfl
      | succ m hm ih =>
        have hs : f^[m + 1] init = f (f^[m] init) := Function.iterate_succ_apply' f m init
        have hs2 : f^[k + 1] init = f (f^[k] init) := Function.iterate_succ_apply' f k init
        rw [hs, ih, ← hs2, heq]
    have h1 := hconst n (le_of_lt hk)
    have hs2 : f^[k + 1] init = f (f^[k] init) := Function.iterate_succ_apply' f k init
    rw [h1, ← hs2, heq]
  · push_neg at hstab
    have hcard : ∀ k, k ≤ n → init.card + k ≤ (f^[k] init).card := by
      intro k hk
      induction k with
      | zero => simp
      | succ k ih =>
        have hlt : k < n := Nat.lt_of_succ_le hk
        have hss : f^[k] init ⊂ f^[k + 1] init :=
          Finset.ssubset_iff_subset_ne.mpr
            ⟨iterate_grow hgrow init k, fun h => hstab k hlt h.symm⟩
        have := Finset.card_lt_card hss
        omega
    have hsub : f^[n] init ⊆ init ∪ U := iterate_bounded hbound init n
    have hge : (init ∪ U).card ≤ (f^[n] init).card := by
      have h1 : (init ∪ U).card ≤ init.card + U.card := Finset.card_union_le _ _
      have h2 := hcard n le_rfl
      omega
    have heq : f^[n] init = init ∪ U := Finset.eq_of_subset_of_card_le hsub hge
    apply Finset.Subset.antisymm
    · refine (hbound _).trans ?_
      rw [heq, Finset.union_assoc, Finset.union_self]
    · exact hgrow _

theorem mem_foldr_incoming {V : Type} (l : List (GNode V)) (x : ℕ) :
    x ∈ l.foldr (fun nd acc => nd.incoming.toFinset ∪ acc) ∅ ↔
      ∃ nd ∈ l, x ∈ nd.incoming := by
  induction l with
  | nil => simp
  | cons nd l ih => simp [ih]

/-- The used set is closed under taking parents: the BFS of
in_place_remove_unused_nodes explores every ancestor. -/
theorem usedIds_closed {V : Type} [Inhabited V] {c : GCirc V} (w : GWF c) :
    ∀ nd ∈ c.nodes, nd.id ∈ usedIds c → ∀ i ∈ nd.incoming, i ∈ usedIds c := by
  have hgrow : ∀ s, s ⊆ closureStep c s := fun s => Finset.subset_union_left
  have hbound : ∀ s, closureStep c s ⊆ s ∪ c.ids.toFinset := by
    intro s
    unfold closureStep
    apply Finset.union_subset Finset.subset_union_left
    intro x hx
    rcases (mem_foldr_incoming _ x).mp hx with ⟨nd, hnd, hxin⟩
    have hnd' : nd ∈ c.nodes := (List.mem_filter.mp hnd).1
    exact Finset.mem_union_right _ (List.mem_toFinset.mpr (w.incSub nd hnd' x hxin))
  have hcard : (c.ids.toFinset).card ≤ c.nodes.length := by
    have h1 := c.ids.toFinset_card_le
    have h2 : c.ids.length = c.nodes.length := List.length_map _ _
    omega
  have hfix := iterate_fixpoint hgrow hbound
    (c.inputs.toFinset ∪ c.outputs.toFinset) c.nodes.length hcard
  intro nd hnd hmem i hi
  have hstep : i ∈ closureStep c (usedIds c) := by
    unfold closureStep
    apply Finset.mem_union_right
    apply (mem_foldr_incoming _ i).mpr
    exact ⟨nd, List.mem_filter.mpr ⟨hnd, by simpa using hmem⟩, hi⟩
  have : closureStep c (usedIds c) = usedIds c := hfix
  rwa [this] at hstep

theorem find?_append_of_none {α : Type} (p : α → Bool) (l1 l2 : List α)
    (h : l1.find? p = none) : (l1 ++ l2).find? p = l2.find? p := by
  induction l1 with
  | nil => simp
  | cons a l1 ih =>
    by_cases ha : p a
    · rw [List.find?_cons_of_pos _ ha] at h
      exact absurd h (by simp)
    · rw [List.cons_append, List.find?_cons_of_neg _ ha]
      rw [List.find?_cons_of_neg _ ha] at h
      exact ih h

/-- C2: Circuit.compose never returns a composed circuit: its body first
rebinds the star-argument tuple through the slice circuits[::-1] (still a
tuple) and then calls .append(self) on it, which raises AttributeError for
every choice of self and argument circuits, before any circuit is built. -/
theorem claim_C2 {α : Type} (self : α) (circuits : List α) :
    composeModel self circuits =
      .error "AttributeError: tuple object has no attribute append" := rfl

/-- C4: the constant-folding branch of Operation.__call__ never returns a
CONST node: after computing eval on the unwrapped constant values it executes
return self.circuit.add_const(value), and an Operation instance has a
_circuit attribute but no circuit attribute, so every constant folding
attempt raises AttributeError. -/
theorem claim_C4 {V : Type} (evalf : List V → V) (constVals : List V) :
    precomputeConstBranch evalf constVals =
      .error "AttributeError: Operation object has no attribute circuit" := rfl

/-- C5: the boolean LUT declares no parameters (its class body has only an
eval method), so constructing it with a table — one positional parameter
value against zero declared parameters — fails the parameter-count check of
Operation.__init__ with TypeError; the LUT of the spec scenario cannot be
constructed. -/
theorem claim_C5 :
    operationInitCheck lutParamNames 1 0 =
      .error "TypeError: passed more parameters than required" := rfl

/-- C6: serializing a boolean circuit that contains an RND node does not
emit opcode 5: the opmap dict of RawSerializer maps the name RANDOM (not
RND) to 5, the boolean RND operation is named RND, and the opcode lookup for
the RND node raises KeyError, so serialization fails. -/
theorem claim_C6 : serializeRaw rndCirc = none := rfl

/-- C3: in_place_remove_duplicate_nodes never drops a duplicate.  The
circuit dupCirc contains two distinct XOR nodes with the same duplicate key
(same operation cache key and the same sorted parent ids), yet the rewrite
returns the circuit unchanged for every hash function: the membership test
`node in seen` compares a Node object against the integer hash keys of
`seen` and is always false. -/
theorem claim_C3 (pyhash : ℕ × List ℕ → ℤ) :
    dupKey (dupCirc.nodes.getD 2 default) = dupKey (dupCirc.nodes.getD 3 default) ∧
    dupCirc.nodes.getD 2 default ≠ dupCirc.nodes.getD 3 default ∧
    removeDup pyhash dupCirc = dupCirc := by
  refine ⟨by decide, ?_, removeDup_eq pyhash dupCirc⟩
  intro h
  have : (dupCirc.nodes.getD 2 default).id = (dupCirc.nodes.getD 3 default).id :=
    congrArg GNode.id h
  simp [dupCirc] at this

/-- C9 counterexample: on a circuit with node caching enabled (the optimized
flavors), calling add_input with an already-used name does not fail: the node
cache is probed before the duplicate-name check of INPUT.before_create_node,
the probe hits, and the existing input node is returned with no error and no
new node. -/
theorem claim_C9_counterexample :
    addInput ⟨0, [], [], [], true⟩ "x" = .ok (optAfterX, 0) ∧
    addInput optAfterX "x" = .ok (optAfterX, 0) := by
  constructor <;> rfl

/-- C9 (amended): after a successful add_input(name), calling add_input with
the same name again fails with the repeated-input-name KeyError and creates
no node when node caching is off; when node caching is on it instead returns
the already-existing input node, with the circuit unchanged (in particular,
again no new node). -/
theorem claim_C9 (c : InCirc) (name : String) (c' : InCirc) (nid : ℕ)
    (h : addInput c name = .ok (c', nid)) :
    (c.cacheNodes = false →
      addInput c' name = .error "KeyError: repeated input name") ∧
    (c.cacheNodes = true → addInput c' name = .ok (c', nid)) := by
  by_cases hc : c.cacheNodes
  · refine ⟨fun hfalse => absurd hc (by simp [hfalse]), fun _ => ?_⟩
    unfold addInput at h ⊢
    rw [if_pos hc] at h
    cases hfind : (c.nodesCache.find? (fun p => p.1 == inputCacheKey name)) with
    | some entry =>
      rw [hfind] at h
      simp only [Option.map_some] at h
      -- cache hit: the existing node is returned, the circuit is unchanged
      have h2 := Except.ok.inj h
      injection h2 with h3 h4
      subst h3
      subst h4
      rw [if_pos hc, hfind]
      simp
    | none =>
      rw [hfind] at h
      simp only [Option.map_none] at h
      by_cases hmem : name ∈ c.inputNames
      · rw [if_pos hmem] at h
        exact absurd h (by simp)
      · rw [if_neg hmem] at h
        have h2 := Except.ok.inj h
        injection h2 with h3 h4
        subst h3
        subst h4
        have hcc : (createdInput c name).cacheNodes = true := by
          simpa [createdInput] using hc
        rw [if_pos hcc]
        have hcache : (createdInput c name).nodesCache =
            c.nodesCache ++ [(inputCacheKey name, c.nodeCount)] := by
          simp [createdInput, hc]
        rw [hcache, find?_append_of_none _ _ _ hfind]
        simp
  · have hc0 : c.cacheNodes = false := by simpa using hc
    refine ⟨fun _ => ?_, fun htrue => absurd htrue (by simp [hc0])⟩
    unfold addInput at h ⊢
    rw [if_neg hc] at h
    by_cases hmem : name ∈ c.inputNames
    · rw [if_pos hmem] at h
      exact absurd h (by simp)
    · rw [if_neg hmem] at h
      have h2 := Except.ok.inj h
      injection h2 with h3 h4
      subst h3
      subst h4
      have hcc : (createdInput c name).cacheNodes = false := by
        simpa [createdInput] using hc0
      rw [if_neg (by simp [hcc])]
      rw [if_pos (show name ∈ (createdInput c name).inputNames by simp [createdInput])]

/-- C9 witness: the amended statement applied to the concrete uncached
circuit (node caching off): the first add_input("x") succeeds and the second
fails with the repeated-name error. -/
theorem claim_C9_witness :
    addInput (⟨1, ["x"], [0], [], false⟩ : InCirc) "x" =
      .error "KeyError: repeated input name" :=
  (claim_C9 ⟨0, [], [], [], false⟩ "x" ⟨1, ["x"], [0], [], false⟩ 0 rfl).1 rfl

theorem memGet_cons {V : Type} (p : ℕ × V) (l : List (ℕ × V)) (i : ℕ) :
    memGet (p :: l) i = if p.1 = i then some p.2 else memGet l i := by
  simp only [memGet, List.find?_cons]
  by_cases h : p.1 = i
  · simp [h]
  · have hb : (p.1 == i) = false := beq_eq_false_iff_ne.mpr h
    simp [hb, h]

theorem memGet_append {V : Type} (l1 l2 : List (ℕ × V)) (i : ℕ) :
    memGet (l1 ++ l2) i =
      match memGet l1 i with
      | some v => some v
      | none => memGet l2 i := by
  induction l1 with
  | nil => simp [memGet]
  | cons p l1 ih =>
    rw [List.cons_append, memGet_cons, memGet_cons]
    by_cases h : p.1 = i
    · simp [h]
    · simp [h, ih]

theorem memGet_append_sing_ne {V : Type} (l : List (ℕ × V)) (k : ℕ) (v : V)
    (i : ℕ) (h : k ≠ i) : memGet (l ++ [(k, v)]) i = memGet l i := by
  rw [memGet_append]
  cases hm : memGet l i with
  | some w => rfl
  | none => simp [memGet_cons, h, memGet]

/-- Evaluation memories that agree on the used ids continue to agree after
appending the same binding. -/
theorem memGet_append_agree {V : Type} (used : Finset ℕ) (mem mem' l0 : List (ℕ × V))
    (hagree : ∀ i ∈ used, memGet mem' i = memGet mem i) :
    ∀ i ∈ used, memGet (mem' ++ l0) i = memGet (mem ++ l0) i := by
  intro i hi
  rw [memGet_append, memGet_append, hagree i hi]

/-- Walking the evaluation loop over the full node list and over the list
restricted to used nodes produces memories that agree on every used id,
provided the used set is closed under taking parents. -/
theorem fold_mem_agree {V : Type} [Inhabited V] (used : Finset ℕ) :
    ∀ (nds : List (GNode V)) (mem mem' : List (ℕ × V)),
      (∀ nd ∈ nds, nd.id ∈ used → ∀ i ∈ nd.incoming, i ∈ used) →
      (∀ i ∈ used, memGet mem' i = memGet mem i) →
      ∀ i ∈ used,
        memGet
          (((nds.filter (fun nd => decide (nd.id ∈ used))).map
              (fun nd =>
                { nd with outgoing := nd.outgoing.filter (fun j => decide (j ∈ used)) })).foldl
            evalStep mem') i
          = memGet (nds.foldl evalStep mem) i := by
  intro nds
  induction nds with
  | nil =>
    intro mem mem' _ hagree i hi
    simpa using hagree i hi
  | cons nd nds ih =>
    intro mem mem' hclosed hagree i hi
    have hclosed' : ∀ x ∈ nds, x.id ∈ used → ∀ j ∈ x.incoming, j ∈ used :=
      fun x hx => hclosed x (List.mem_cons_of_mem _ hx)
    by_cases hu : nd.id ∈ used
    · rw [List.filter_cons_of_pos (by simpa using hu)]
      simp only [List.map_cons, List.foldl_cons]
      by_cases hin : nd.isINPUT
      · have e1 : evalStep mem nd = mem := by simp [evalStep, hin]
        have e2 : evalStep mem'
            { nd with outgoing := nd.outgoing.filter (fun j => decide (j ∈ used)) } = mem' := by
          simp only [evalStep]
          rw [if_pos (by simpa [GNode.isINPUT] using hin)]
        rw [e1, e2]
        exact ih mem mem' hclosed' hagree i hi
      · have hval : evalNodeVal mem' nd = evalNodeVal mem nd := by
          unfold evalNodeVal
          congr 1
          apply List.map_congr_left
          intro j hj
          rw [hagree j (hclosed nd (List.mem_cons_self nd nds) hu j hj)]
        have e1 : evalStep mem nd = mem ++ [(nd.id, evalNodeVal mem nd)] := by
          simp [evalStep, hin]
        have e2 : evalStep mem'
            { nd with outgoing := nd.outgoing.filter (fun j => decide (j ∈ used)) } =
            mem' ++ [(nd.id, evalNodeVal mem nd)] := by
          simp only [evalStep]
          rw [if_neg (by simpa [GNode.isINPUT] using hin)]
          have : evalNodeVal mem'
              { nd with outgoing := nd.outgoing.filter (fun j => decide (j ∈ used)) } =
              evalNodeVal mem nd := by
            rw [← hval]
            rfl
          rw [this]
        rw [e1, e2]
        exact ih _ _ hclosed'
          (memGet_append_agree used mem mem' [(nd.id, evalNodeVal mem nd)] hagree) i hi
    · rw [List.filter_cons_of_neg (by simpa using hu)]
      by_cases hin : nd.isINPUT
      · have e1 : evalStep mem nd = mem := by simp [evalStep, hin]
        simp only [List.foldl_cons, e1]
        exact ih mem mem' hclosed' hagree i hi
      · have e1 : evalStep mem nd = mem ++ [(nd.id, evalNodeVal mem nd)] := by
          simp [evalStep, hin]
        simp only [List.foldl_cons, e1]
        refine ih _ _ hclosed' ?_ i hi
        intro j hj
        rw [hagree j hj, memGet_append_sing_ne]
        intro heq
        exact hu (heq ▸ hj)

/-- C10: on a well-formed circuit (the model covers exactly the circuits
whose operations have pure eval rules, i.e. circuits without RND nodes),
in_place_remove_unused_nodes preserves the list of outputs returned by
evaluate on every input vector, retains every input node, and keeps every
node that is backward-reachable from the outputs (so only unreachable nodes
are dropped). -/
theorem claim_C10 {V : Type} [Inhabited V] (c : GCirc V) (w : GWF c)
    (input : List V) :
    evalCirc (removeUnused c) input = evalCirc c input ∧
    (∀ i ∈ c.inputs, i ∈ (removeUnused c).ids) ∧
    (∀ nd ∈ c.nodes, nd.id ∈ usedIds c → nd.id ∈ (removeUnused c).ids) := by
  have hgrow : ∀ s, s ⊆ closureStep c s := fun s => Finset.subset_union_left
  have hinit : c.inputs.toFinset ∪ c.outputs.toFinset ⊆ usedIds c :=
    iterate_init_subset hgrow _ _
  have houtUsed : ∀ o ∈ c.outputs, o ∈ usedIds c := fun o ho =>
    hinit (Finset.mem_union_right _ (List.mem_toFinset.mpr ho))
  have hinUsed : ∀ i ∈ c.inputs, i ∈ usedIds c := fun i hi =>
    hinit (Finset.mem_union_left _ (List.mem_toFinset.mpr hi))
  have hmemInput : ∀ i ∈ c.inputs, ∃ nd ∈ c.nodes, nd.id = i := by
    intro i hi
    rw [w.inputsSpec] at hi
    rcases List.mem_map.mp hi with ⟨nd, hnd, rfl⟩
    exact ⟨nd, (List.mem_filter.mp hnd).1, rfl⟩
  simp only [removeUnused]
  split_ifs with hall
  · refine ⟨rfl, ?_, ?_⟩
    · intro i hi
      rcases hmemInput i hi with ⟨nd, hnd, rfl⟩
      exact List.mem_map.mpr ⟨nd, hnd, rfl⟩
    · intro nd hnd _
      exact List.mem_map.mpr ⟨nd, hnd, rfl⟩
  · refine ⟨?_, ?_, ?_⟩
    · -- evaluation outputs are unchanged
      simp only [evalCirc]
      split_ifs with hlen
      · apply congrArg some
        apply List.map_congr_left
        intro o ho
        rw [fold_mem_agree (usedIds c) c.nodes (c.inputs.zip input) (c.inputs.zip input)
          (fun nd hnd hu i hi => usedIds_closed w nd hnd hu i hi)
          (fun i _ => rfl) o (houtUsed o ho)]
      · rfl
    · intro i hi
      rcases hmemInput i hi with ⟨nd, hnd, rfl⟩
      refine List.mem_map.mpr ⟨_, List.mem_map.mpr ⟨nd, ?_, rfl⟩, rfl⟩
      exact List.mem_filter.mpr ⟨hnd, by simpa using hinUsed nd.id hi⟩
    · intro nd hnd hu
      refine List.mem_map.mpr ⟨_, List.mem_map.mpr ⟨nd, ?_, rfl⟩, rfl⟩
      exact List.mem_filter.mpr ⟨hnd, by simpa using hu⟩

/-- C10 witness: the concrete circuit with input a (the output) and an
unused node NOT a; removal drops the unused node and evaluation at the
input 1 is unchanged. -/
theorem claim_C10_witness :
    evalCirc (removeUnused unusedCirc) [1] = evalCirc unusedCirc [1] ∧
    (removeUnused unusedCirc).nodes.length = 1 ∧
    evalCirc unusedCirc [1] = some [1] := by
  refine ⟨(claim_C10 unusedCirc (by constructor <;> decide) [1]).1, by decide, by decide⟩

/-- C8: the forward/backward edge agreement — v in u.outgoing iff u in
v.incoming, for every pair of nodes of the circuit — is preserved by node
creation (with a fresh id and existing parents), by
in_place_remove_unused_nodes, and by in_place_remove_duplicate_nodes (for
every hash function). -/
theorem claim_C8 {V : Type} [Inhabited V] (c : GCirc V) (w : GWF c)
    (hinv : edgeInv c) (op : GOp V) (incoming : List ℕ) (newId : ℕ)
    (hfresh : newId ∉ c.ids) (hincm : ∀ i ∈ incoming, i ∈ c.ids)
    (pyhash : ℕ × List ℕ → ℤ) :
    edgeInv (createNode c op incoming newId) ∧
    edgeInv (removeUnused c) ∧
    edgeInv (removeDup pyhash c) := by
  refine ⟨edgeInv_createNode w hinv op incoming newId hfresh hincm,
    edgeInv_removeUnused c hinv, ?_⟩
  rw [removeDup_eq pyhash c]
  exact hinv

/-- C8 witness: the invariant preservation applied to the concrete circuit
dupCirc, creating a NOT node over node 2 with the fresh id 4. -/
theorem claim_C8_witness :
    edgeInv (createNode dupCirc bNOT [2] 4) ∧
    edgeInv (removeUnused dupCirc) ∧
    edgeInv (removeDup (fun _ => 0) dupCirc) :=
  claim_C8 dupCirc (by constructor <;> decide) (by unfold edgeInv; decide) bNOT [2] 4
    (by decide) (by decide) (fun _ => 0)

theorem char2_add_self {R : Type} [CommRing R] (h2 : (2 : R) = 0) (a : R) :
    a + a = 0 := by
  have h : (2 : R) * a = 0 := by rw [h2, zero_mul]
  calc a + a = 2 * a := by ring
  _ = 0 := h

theorem char2_sub {R : Type} [CommRing R] (h2 : (2 : R) = 0) (a b : R) :
    a - b = a + b := by
  have hb : -b = b := neg_eq_of_add_eq_zero_left (char2_add_self h2 b)
  rw [sub_eq_add_neg, hb]

theorem list_range_map_sum {R : Type} [AddCommMonoid R] (n : ℕ) (f : ℕ → R) :
    ((List.range n).map f).sum = ∑ i ∈ Finset.range n, f i := by
  induction n with
  | zero => simp
  | succ n ih =>
    rw [List.range_succ, List.map_append, List.sum_append, Finset.sum_range_succ, ih]
    simp

theorem list_sum_eq_sum_getD {R : Type} [AddCommMonoid R] (l : List R) :
    l.sum = ∑ i ∈ Finset.range l.length, l.getD i 0 := by
  induction l with
  | nil => simp
  | cons a l ih =>
    rw [List.sum_cons, List.length_cons, Finset.sum_range_succ', ih]
    simp [add_comm]

theorem foldl_add_eq {R : Type} [AddCommMonoid R] :
    ∀ (l : List R) (a : R), l.foldl (fun x y => x + y) a = a + l.sum := by
  intro l
  induction l with
  | nil => intro a; simp
  | cons b l ih => intro a; simp [ih, add_assoc]

theorem foldl_if_sub {R : Type} [CommRing R] (P : ℕ → Prop) [DecidablePred P]
    (f : ℕ → R) :
    ∀ (l : List ℕ) (a : R),
      l.foldl (fun acc j => if P j then acc - f j else acc) a
        = a - ((l.filter (fun j => decide (P j))).map f).sum := by
  intro l
  induction l with
  | nil => intro a; simp
  | cons j l ih =>
    intro a
    by_cases h : P j
    · rw [List.foldl_cons, if_pos h, ih, List.filter_cons_of_pos (by simpa using h)]
      simp [sub_sub]
    · rw [List.foldl_cons, if_neg h, ih, List.filter_cons_of_neg (by simpa using h)]

theorem list_filter_map_sum {R : Type} [AddCommMonoid R] (P : ℕ → Prop)
    [DecidablePred P] (f : ℕ → R) (n : ℕ) :
    (((List.range n).filter (fun j => decide (P j))).map f).sum
      = ∑ j ∈ Finset.range n, if P j then f j else 0 := by
  induction n with
  | zero => simp
  | succ n ih =>
    rw [List.range_succ, List.filter_append, List.map_append, List.sum_append, ih,
      Finset.sum_range_succ]
    by_cases h : P n
    · simp [h]
    · simp [h]

theorem iswZ_eq {R : Type} [CommRing R] (n : ℕ) (x y : List R) (rnd : ℕ → R)
    (s i : ℕ) :
    iswZ n x y rnd s i
      = x.getD i 0 * y.getD i 0
        - ∑ j ∈ Finset.range n, if i ≠ j then iswR n x y rnd s i j else 0 := by
  unfold iswZ
  rw [foldl_if_sub (fun j => i ≠ j) (iswR n x y rnd s i) (List.range n),
    list_filter_map_sum]

/-- Sum of the shares produced by the ISW multiplication gadget, in a ring
where 2 = 0: the gadget preserves the product of the share sums. -/
theorem iswMul_sum {R : Type} [CommRing R] (h2 : (2 : R) = 0) (n : ℕ)
    (x y : List R) (rnd : ℕ → R) (s : ℕ) :
    ((List.range n).map (iswZ n x y rnd s)).sum
      = (∑ i ∈ Finset.range n, x.getD i 0) * (∑ j ∈ Finset.range n, y.getD j 0) := by
  set ρ : ℕ → ℕ → R := fun i j => rnd (s + pairIdx n i j) with hρ
  rw [list_range_map_sum]
  have hz : ∀ i ∈ Finset.range n, iswZ n x y rnd s i
      = x.getD i 0 * y.getD i 0
        - ∑ j ∈ Finset.range n, if i ≠ j then iswR n x y rnd s i j else 0 :=
    fun i _ => iswZ_eq n x y rnd s i
  rw [Finset.sum_congr rfl hz, Finset.sum_sub_distrib]
  -- split the r-sum by the order of the indices
  have hsplit : ∀ i ∈ Finset.range n, ∀ j ∈ Finset.range n,
      (if i ≠ j then iswR n x y rnd s i j else 0)
        = (if j < i then iswR n x y rnd s i j else 0)
          + (if i < j then iswR n x y rnd s i j else 0) := by
    intro i _ j _
    rcases lt_trichotomy i j with h | h | h
    · rw [if_pos (ne_of_lt h), if_neg (by omega), if_pos h, zero_add]
    · rw [if_neg (by omega), if_neg (by omega), if_neg (by omega), add_zero]
    · rw [if_pos (by omega), if_pos h, if_neg (by omega), add_zero]
  have hA : (∑ i ∈ Finset.range n, ∑ j ∈ Finset.range n,
        if i ≠ j then iswR n x y rnd s i j else 0)
      = (∑ i ∈ Finset.range n, ∑ j ∈ Finset.range n,
          if j < i then iswR n x y rnd s i j else 0)
        + (∑ i ∈ Finset.range n, ∑ j ∈ Finset.range n,
          if i < j then iswR n x y rnd s i j else 0) := by
    rw [← Finset.sum_add_distrib]
    refine Finset.sum_congr rfl fun i hi => ?_
    rw [← Finset.sum_add_distrib]
    exact Finset.sum_congr rfl fun j hj => hsplit i hi j hj
  -- in the lower triangle the source assigns r[i][j] = r[j][i] + xj*yi + xi*yj
  have hlow : ∀ i j : ℕ, j < i →
      iswR n x y rnd s i j = ρ j i + x.getD j 0 * y.getD i 0 + x.getD i 0 * y.getD j 0 := by
    intro i j hj
    unfold iswR
    rw [if_neg (by omega)]
  -- in the upper triangle it is the fresh random of the pair
  have hup : ∀ i j : ℕ, i < j → iswR n x y rnd s i j = ρ i j := by
    intro i j hij
    unfold iswR
    rw [if_pos hij]
  have hC : (∑ i ∈ Finset.range n, ∑ j ∈ Finset.range n,
        if j < i then iswR n x y rnd s i j else 0)
      = (∑ i ∈ Finset.range n, ∑ j ∈ Finset.range n, if j < i then ρ j i else 0)
        + ((∑ i ∈ Finset.range n, ∑ j ∈ Finset.range n,
            if j < i then x.getD j 0 * y.getD i 0 else 0)
          + (∑ i ∈ Finset.range n, ∑ j ∈ Finset.range n,
            if j < i then x.getD i 0 * y.getD j 0 else 0)) := by
    have hpt : ∀ i ∈ Finset.range n, ∀ j ∈ Finset.range n,
        (if j < i then iswR n x y rnd s i j else 0)
          = (if j < i then ρ j i else 0)
            + ((if j < i then x.getD j 0 * y.getD i 0 else 0)
              + (if j < i then x.getD i 0 * y.getD j 0 else 0)) := by
      intro i _ j _
      by_cases h : j < i
      · rw [if_pos h, if_pos h, if_pos h, if_pos h, hlow i j h]
        ring
      · rw [if_neg h, if_neg h, if_neg h, if_neg h]
        ring
    rw [Finset.sum_congr rfl fun i hi => Finset.sum_congr rfl fun j hj => hpt i hi j hj]
    simp only [Finset.sum_add_distrib]
  have hBup : (∑ i ∈ Finset.range n, ∑ j ∈ Finset.range n,
        if i < j then iswR n x y rnd s i j else 0)
      = ∑ i ∈ Finset.range n, ∑ j ∈ Finset.range n, if i < j then ρ i j else 0 := by
    refine Finset.sum_congr rfl fun i _ => Finset.sum_congr rfl fun j _ => ?_
    by_cases h : i < j
    · rw [if_pos h, if_pos h, hup i j h]
    · rw [if_neg h, if_neg h]
  have hρcomm : (∑ i ∈ Finset.range n, ∑ j ∈ Finset.range n, if j < i then ρ j i else 0)
      = ∑ i ∈ Finset.range n, ∑ j ∈ Finset.range n, if i < j then ρ i j else 0 :=
    Finset.sum_comm
  have hxycomm : (∑ i ∈ Finset.range n, ∑ j ∈ Finset.range n,
        if j < i then x.getD j 0 * y.getD i 0 else 0)
      = ∑ i ∈ Finset.range n, ∑ j ∈ Finset.range n,
          if i < j then x.getD i 0 * y.getD j 0 else 0 :=
    Finset.sum_comm
  have hmerge : (∑ i ∈ Finset.range n, ∑ j ∈ Finset.range n,
        if i < j then x.getD i 0 * y.getD j 0 else 0)
      + (∑ i ∈ Finset.range n, ∑ j ∈ Finset.range n,
        if j < i then x.getD i 0 * y.getD j 0 else 0)
      = ∑ i ∈ Finset.range n, ∑ j ∈ Finset.range n,
          if i ≠ j then x.getD i 0 * y.getD j 0 else 0 := by
    rw [← Finset.sum_add_distrib]
    refine Finset.sum_congr rfl fun i _ => ?_
    rw [← Finset.sum_add_distrib]
    refine Finset.sum_congr rfl fun j _ => ?_
    rcases lt_trichotomy i j with h | h | h
    · rw [if_pos h, if_neg (by omega), if_pos (by omega), add_zero]
    · rw [if_neg (by omega), if_neg (by omega), if_neg (by omega), add_zero]
    · rw [if_neg (by omega), if_pos h, if_pos (by omega), zero_add]
  have hρ0 : (∑ i ∈ Finset.range n, ∑ j ∈ Finset.range n, if i < j then ρ i j else 0)
      + (∑ i ∈ Finset.range n, ∑ j ∈ Finset.range n, if i < j then ρ i j else 0) = 0 :=
    char2_add_self h2 _
  rw [hA, hC, hBup, hρcomm, hxycomm]
  have hstep : ∀ A B C D : R, A + B = 0 → (A + (C + D)) + B = C + D := by
    intro A B C D h
    have : A + B + (C + D) = C + D := by rw [h, zero_add]
    calc A + (C + D) + B = A + B + (C + D) := by ring
    _ = C + D := this
  rw [hstep _ _ _ _ hρ0]
  rw [hmerge]
  rw [char2_sub h2]
  -- recombine the diagonal and the off-diagonal terms
  have hdiag : (∑ i ∈ Finset.range n, x.getD i 0 * y.getD i 0)
      + (∑ i ∈ Finset.range n, ∑ j ∈ Finset.range n,
          if i ≠ j then x.getD i 0 * y.getD j 0 else 0)
      = ∑ i ∈ Finset.range n, ∑ j ∈ Finset.range n, x.getD i 0 * y.getD j 0 := by
    rw [← Finset.sum_add_distrib]
    refine Finset.sum_congr rfl fun i hi => ?_
    have herase : (∑ j ∈ Finset.range n, if i ≠ j then x.getD i 0 * y.getD j 0 else 0)
        = ∑ j ∈ (Finset.range n).erase i, x.getD i 0 * y.getD j 0 := by
      rw [← Finset.sum_filter, Finset.filter_ne]
    rw [herase]
    exact Finset.add_sum_erase (Finset.range n) (fun j => x.getD i 0 * y.getD j 0) hi
  rw [hdiag, Finset.sum_mul_sum]

theorem sum_zipWith_add {R : Type} [AddCommMonoid R] :
    ∀ (x y : List R), x.length = y.length →
      (List.zipWith (fun a b => a + b) x y).sum = x.sum + y.sum := by
  intro x
  induction x with
  | nil =>
    intro y h
    have hy : y = [] := List.length_eq_zero.mp h.symm
    simp [hy]
  | cons a x ih =>
    intro y h
    cases y with
    | nil => simp at h
    | cons b y =>
      simp only [List.zipWith_cons_cons, List.sum_cons]
      rw [ih y (by simpa using h)]
      exact add_add_add_comm a b x.sum y.sum

theorem evalA_length {R : Type} [CommRing R] (inputs : ℕ → R) :
    ∀ (gs : List (AGate R)) (svals : List R),
      (gs.foldl (evalAStep inputs) svals).length = svals.length + gs.length := by
  intro gs
  induction gs with
  | nil => intro svals; simp
  | cons g gs ih =>
    intro svals
    rw [List.foldl_cons, ih]
    have hstep : (evalAStep inputs svals g).length = svals.length + 1 := by
      cases g <;> simp [evalAStep]
    rw [hstep]
    simp [Nat.add_assoc, Nat.add_comm 1 gs.length]

theorem getD_append_left {α : Type} (l l2 : List α) (d : α) (v : ℕ)
    (h : v < l.length) : (l ++ l2).getD v d = l.getD v d := by
  rw [List.getD_eq_getElem?_getD, List.getD_eq_getElem?_getD,
    List.getElem?_append, if_pos h]

theorem getD_append_self {α : Type} (l : List α) (x d : α) :
    (l ++ [x]).getD l.length d = x := by
  rw [List.getD_eq_getElem?_getD, List.getElem?_append_right (le_refl _)]
  simp

/-- Main invariant of the ISW transformer over a ring with 2 = 0: processing
any further gate list preserves, for every node, that its share list has n
entries summing to the node's value in the source circuit. -/
theorem isw_invariant {R : Type} [CommRing R] (h2 : (2 : R) = 0) (n : ℕ)
    (hn : 1 ≤ n) (inputs tin rnd : ℕ → R)
    (hin : ∀ k, inputs k = ((List.range n).map (fun i => tin (n * k + i))).sum) :
    ∀ (gs : List (AGate R)) (svals : List R) (res : List (List R)) (s : ℕ),
      res.length = svals.length →
      (∀ p ∈ List.range gs.length, (gs.getD p (.INPUT 0)).refsLt (svals.length + p)) →
      (∀ v, v < res.length →
        (res.getD v []).length = n ∧ (res.getD v []).sum = svals.getD v 0) →
      (gs.foldl (iswStep n tin rnd) (res, s)).1.length
          = (gs.foldl (evalAStep inputs) svals).length ∧
      ∀ v, v < (gs.foldl (iswStep n tin rnd) (res, s)).1.length →
        ((gs.foldl (iswStep n tin rnd) (res, s)).1.getD v []).length = n ∧
        ((gs.foldl (iswStep n tin rnd) (res, s)).1.getD v []).sum
          = (gs.foldl (evalAStep inputs) svals).getD v 0 := by
  intro gs
  induction gs with
  | nil =>
    intro svals res s hlen hrefs hinv
    exact ⟨by simpa using hlen, fun v hv => hinv v (by simpa using hv)⟩
  | cons g gs ih =>
    intro svals res s hlen hrefs hinv
    have hrefs0 := hrefs 0 (by simp)
    simp only [List.getD_cons_zero] at hrefs0
    have hrefs1 : ∀ (val : R) (p : ℕ), p ∈ List.range gs.length →
        (gs.getD p (.INPUT 0)).refsLt ((svals ++ [val]).length + p) := by
      intro val p hp
      have hmem : p + 1 ∈ List.range (g :: gs).length := by
        simp only [List.mem_range, List.length_cons] at hp ⊢
        omega
      have h := hrefs (p + 1) hmem
      simp only [List.getD_cons_succ] at h
      have heq : svals.length + (p + 1) = (svals ++ [val]).length + p := by
        simp only [List.length_append, List.length_singleton]
        omega
      exact heq ▸ h
    have hkeep : ∀ (sh : List R) (val : R),
        (sh.length = n ∧ sh.sum = val) →
        (∀ v, v < (res ++ [sh]).length →
          ((res ++ [sh]).getD v []).length = n ∧
          ((res ++ [sh]).getD v []).sum = ((svals ++ [val]).getD v 0)) := by
      intro sh val hnew v hv
      simp only [List.length_append, List.length_singleton] at hv
      by_cases hvlt : v < res.length
      · rw [getD_append_left _ _ _ _ hvlt, getD_append_left _ _ _ _ (by omega : v < svals.length)]
        exact hinv v hvlt
      · have hveq : v = res.length := by omega
        subst hveq
        rw [getD_append_self]
        have hsv : res.length = svals.length := hlen
        rw [hsv, getD_append_self]
        exact hnew
    cases g with
    | INPUT k =>
      rw [List.foldl_cons, List.foldl_cons]
      simp only [iswStep, evalAStep]
      exact ih (svals ++ [inputs k]) (res ++ [(List.range n).map (fun i => tin (n * k + i))]) s
        (by simp [hlen]) (hrefs1 (inputs k))
        (hkeep _ _ ⟨by simp, (hin k).symm⟩)
    | CONST cv =>
      rw [List.foldl_cons, List.foldl_cons]
      simp only [iswStep, evalAStep]
      refine ih (svals ++ [cv]) _ _ (by simp [hlen]) (hrefs1 cv) (hkeep _ _ ⟨?_, ?_⟩)
      · simp
        omega
      · rw [List.sum_append, List.sum_singleton, foldl_add_eq]
        linear_combination char2_add_self h2 ((List.range (n - 1)).map (fun i => rnd (s + i))).sum
    | ADD i j =>
      rw [List.foldl_cons, List.foldl_cons]
      simp only [iswStep, evalAStep]
      simp only [AGate.refsLt, Nat.add_zero] at hrefs0
      have hi := hinv i (by omega)
      have hj := hinv j (by omega)
      refine ih (svals ++ [svals.getD i 0 + svals.getD j 0]) _ _ (by simp [hlen])
        (hrefs1 _) (hkeep _ _ ⟨?_, ?_⟩)
      · have hi1 := hi.1
        have hj1 := hj.1
        simp only [List.getD_eq_getElem?_getD] at hi1 hj1
        simp [hi1, hj1]
      · rw [sum_zipWith_add _ _ (by rw [hi.1, hj.1]), hi.2, hj.2]
    | MUL i j =>
      rw [List.foldl_cons, List.foldl_cons]
      simp only [iswStep, evalAStep]
      simp only [AGate.refsLt, Nat.add_zero] at hrefs0
      have hi := hinv i (by omega)
      have hj := hinv j (by omega)
      refine ih (svals ++ [svals.getD i 0 * svals.getD j 0]) _ _ (by simp [hlen])
        (hrefs1 _) (hkeep _ _ ⟨?_, ?_⟩)
      · simp
      · rw [iswMul_sum h2]
        have hx : (∑ a ∈ Finset.range n, (res.getD i []).getD a 0) = svals.getD i 0 := by
          rw [← hi.1, ← list_sum_eq_sum_getD]
          exact hi.2
        have hy : (∑ a ∈ Finset.range n, (res.getD j []).getD a 0) = svals.getD j 0 := by
          rw [← hj.1, ← list_sum_eq_sum_getD]
          exact hj.2
        rw [hx, hy]

/-- C1 (amended): over a base ring of characteristic 2 — which covers
boolean circuits, where XOR and AND are the ring operations of GF(2) — the
ISW transformer at any order d (n = d+1 shares, n at least 1) is correct:
whenever each original input value equals the sum of its n input shares,
then for every original output the sum of the n corresponding output shares
equals the original circuit's output, for every assignment of the RND
nodes. -/
theorem claim_C1 {R : Type} [CommRing R] (h2 : (2 : R) = 0) (n : ℕ) (hn : 1 ≤ n)
    (c : ACirc R) (hwf : AWF c) (inputs tin rnd : ℕ → R)
    (hin : ∀ k, inputs k = ((List.range n).map (fun i => tin (n * k + i))).sum) :
    ∀ o ∈ c.outputs,
      ((iswRun n tin rnd c.gates).1.getD o []).sum
        = (evalA c.gates inputs).getD o 0 := by
  intro o ho
  have h := isw_invariant h2 n hn inputs tin rnd hin c.gates [] [] 0 rfl
    (by intro p hp; simpa using hwf.1 p hp)
    (by intro v hv; simp at hv)
  have hb : o < (c.gates.foldl (iswStep n tin rnd) ([], 0)).1.length := by
    rw [h.1, evalA_length]
    simpa using hwf.2 o ho
  unfold iswRun evalA
  exact (h.2 o hb).2

/-- C1 counterexample: over the integers (an arithmetic circuit whose base
ring does not have characteristic 2), the claim fails on the circuit
z = MUL(x0, x1) at order 1: with both inputs 1, input shares (1, 0) for each
input (so the share sums match the inputs) and every RND node reading 1, the
two output shares sum to -1 while the circuit outputs 1. -/
theorem claim_C1_counterexample :
    (∀ k, cexInputs k = ((List.range 2).map (fun i => cexTin (2 * k + i))).sum) ∧
    ((iswRun 2 cexTin cexRnd mulGatesZ).1.getD 2 []).sum ≠
      (evalA mulGatesZ cexInputs).getD 2 0 := by
  constructor
  · intro k
    have h0 : (2 * k) % 2 = 0 := by omega
    have h1 : (2 * k + 1) % 2 = 1 := by omega
    have hr : List.range 2 = [0, 1] := rfl
    rw [hr]
    simp [cexInputs, cexTin, h0, h1]
  · decide

/-- C1 witness: the amended claim applied to the same multiplication circuit
over GF(2) at order 1: the share sums of the output equal the product of the
inputs for the concrete share and randomness assignments. -/
theorem claim_C1_witness :
    ((iswRun 2 cexTin2 cexRnd2 mulGates2).1.getD 2 []).sum
      = (evalA mulGates2 cexInputs2).getD 2 0 :=
  claim_C1 (by decide) 2 (by omega) mulCirc2 (by decide) cexInputs2 cexTin2 cexRnd2
    (by
      intro k
      have h0 : (2 * k) % 2 = 0 := by omega
      have h1 : (2 * k + 1) % 2 = 1 := by omega
      have hr : List.range 2 = [0, 1] := rfl
      rw [hr]
      simp [cexInputs2, cexTin2, h0, h1])
    2 (by decide)

theorem lookupA_append_some (l l2 : List (ℕ × ℕ)) (k v : ℕ)
    (h : lookupA l k = some v) : lookupA (l ++ l2) k = some v := by
  unfold lookupA at h ⊢
  cases hf : l.find? (fun p => p.1 == k) with
  | none => rw [hf] at h; simp at h
  | some p =>
    rw [hf] at h
    rw [List.find?_append, hf]
    simpa using h

theorem lookupA_append_none (l l2 : List (ℕ × ℕ)) (k : ℕ)
    (h : lookupA l k = none) : lookupA (l ++ l2) k = lookupA l2 k := by
  unfold lookupA at h ⊢
  cases hf : l.find? (fun p => p.1 == k) with
  | none => rw [find?_append_of_none _ _ _ hf]
  | some p => rw [hf] at h; simp at h

theorem lookupA_sing_self (k v : ℕ) : lookupA [(k, v)] k = some v := by
  simp [lookupA]

theorem lookupA_sing_ne (k v k' : ℕ) (h : k' ≠ k) : lookupA [(k, v)] k' = none := by
  have hb : (k == k') = false := beq_eq_false_iff_ne.mpr (Ne.symm h)
  simp [lookupA, List.find?_cons, hb]

theorem find?_setA_map (l : List (ℕ × ℕ)) (k v : ℕ) :
    (l.map (fun p => if p.1 == k then (k, v) else p)).find? (fun q => q.1 == k)
      = if l.any (fun p => p.1 == k) then some (k, v) else none := by
  induction l with
  | nil => simp
  | cons p l ih =>
    cases hb : (p.1 == k) with
    | true =>
      simp only [List.map_cons]
      rw [if_pos hb, List.find?_cons_of_pos _ (by simp), List.any_cons, hb]
      simp
    | false =>
      simp only [List.map_cons]
      rw [if_neg (by simp [hb]), List.find?_cons_of_neg _ (by simp [hb]), List.any_cons, hb]
      simp only [Bool.false_or]
      exact ih

theorem find?_setA_map_other (l : List (ℕ × ℕ)) (k v k' : ℕ) (h : k' ≠ k) :
    (l.map (fun p => if p.1 == k then (k, v) else p)).find? (fun q => q.1 == k')
      = l.find? (fun q => q.1 == k') := by
  induction l with
  | nil => simp
  | cons p l ih =>
    cases hb : (p.1 == k) with
    | true =>
      have hkk : (k == k') = false := beq_eq_false_iff_ne.mpr (Ne.symm h)
      have hpe : p.1 = k := by simpa using hb
      have hpk : (p.1 == k') = false := by rw [hpe]; exact hkk
      simp only [List.map_cons]
      rw [if_pos hb, List.find?_cons_of_neg _ (by simp [hkk]),
        List.find?_cons_of_neg _ (by simp [hpk])]
      exact ih
    | false =>
      cases hb2 : (p.1 == k') with
      | true =>
        simp only [List.map_cons]
        rw [if_neg (by simp [hb]), List.find?_cons_of_pos _ (by simp [hb2]),
          List.find?_cons_of_pos _ (by simp [hb2])]
      | false =>
        simp only [List.map_cons]
        rw [if_neg (by simp [hb]), List.find?_cons_of_neg _ (by simp [hb2]),
          List.find?_cons_of_neg _ (by simp [hb2])]
        exact ih

theorem lookupD_setA_self (l : List (ℕ × ℕ)) (k v : ℕ) :
    lookupD (setA l k v) k 0 = v := by
  unfold setA
  by_cases h : l.any (fun p => p.1 == k)
  · rw [if_pos h]
    unfold lookupD lookupA
    rw [find?_setA_map, if_pos h]
    rfl
  · rw [if_neg h]
    have hfindn : l.find? (fun p => p.1 == k) = none :=
      List.find?_eq_none.mpr (fun x hx hcon => h (List.any_eq_true.mpr ⟨x, hx, hcon⟩))
    have hnone : lookupA l k = none := by
      unfold lookupA
      rw [hfindn]
      rfl
    unfold lookupD
    rw [lookupA_append_none _ _ _ hnone, lookupA_sing_self]
    rfl

theorem lookupD_setA_other (l : List (ℕ × ℕ)) (k v k' : ℕ) (h : k' ≠ k) :
    lookupD (setA l k v) k' 0 = lookupD l k' 0 := by
  unfold setA
  by_cases hany : l.any (fun p => p.1 == k)
  · rw [if_pos hany]
    unfold lookupD lookupA
    rw [find?_setA_map_other _ _ _ _ h]
  · rw [if_neg hany]
    unfold lookupD
    cases hf : lookupA l k' with
    | some w => simp [lookupA_append_some l [(k, v)] k' w hf, hf]
    | none => simp [lookupA_append_none l [(k, v)] k' hf, hf, lookupA_sing_ne k v k' h]

/-- Core of the allocation step: adding a fresh, unused node with a cell not
currently live preserves the serializer invariant, for any free list, RAM
size and peak satisfying the arithmetic side conditions. -/
theorem serAlloc_generic {V : Type} {c : GCirc V} {alloced : List (GNode V)}
    {u : ℕ → ℕ} {st : SerSt} (hinv : SerInv c alloced u st) (nd : GNode V)
    (hfresh : ∀ x ∈ alloced, x.id ≠ nd.id) (hu0 : u nd.id = 0)
    (cell : ℕ) (free' : List ℕ) (ram' pk : ℕ) (code' : List (ℕ × ℕ × List ℕ))
    (hnl : cell ∉ st.live)
    (hfn : free'.Nodup)
    (hfd : ∀ x ∈ free', x ∉ insert cell st.live)
    (hur : insert cell st.live ∪ free'.toFinset = Finset.range ram')
    (hpk : pk = ram') :
    SerInv c (alloced ++ [nd]) u
      ⟨free', st.bitId ++ [(nd.id, cell)], ram', st.nUsed, code',
        insert cell st.live, pk⟩ := by
  have hndfree : ¬ freedP c u nd.id := by
    intro hf
    obtain ⟨-, h1, h2⟩ := hf
    rw [hu0] at h2
    omega
  have hbitnd : lookupA st.bitId nd.id = none := hinv.bitNone nd.id hfresh
  have hndlook : lookupA (st.bitId ++ [(nd.id, cell)]) nd.id = some cell := by
    rw [lookupA_append_none _ _ _ hbitnd, lookupA_sing_self]
  constructor
  · exact hfn
  · exact hfd
  · exact hur
  · exact hpk
  · exact hinv.usedEq
  · intro x hx
    rcases List.mem_append.mp hx with hx | hx
    · obtain ⟨c0, h0⟩ := hinv.bitSome x hx
      exact ⟨c0, lookupA_append_some _ _ _ _ h0⟩
    · rw [List.mem_singleton.mp hx]
      exact ⟨cell, hndlook⟩
  · intro k hk
    have hnk : nd.id ≠ k := hk nd (List.mem_append_right _ (List.mem_singleton_self nd))
    have hold : lookupA st.bitId k = none :=
      hinv.bitNone k (fun x hx => hk x (List.mem_append_left _ hx))
    rw [lookupA_append_none _ _ _ hold, lookupA_sing_ne _ _ _ (fun h => hnk h.symm)]
  · intro x hx hxf cl hcl
    rcases List.mem_append.mp hx with hx | hx
    · obtain ⟨c0, h0⟩ := hinv.bitSome x hx
      rw [lookupA_append_some _ _ _ _ h0] at hcl
      have : c0 = cl := by injection hcl
      exact this ▸ Finset.mem_insert_of_mem (hinv.liveCells x hx hxf c0 h0)
    · rw [List.mem_singleton.mp hx] at hcl
      rw [hndlook] at hcl
      have : cell = cl := by injection hcl
      exact this ▸ Finset.mem_insert_self cell st.live
  · intro n1 h1 n2 h2 hne hf1 hf2
    rcases List.mem_append.mp h1 with h1 | h1 <;> rcases List.mem_append.mp h2 with h2 | h2
    · obtain ⟨c1, hc1⟩ := hinv.bitSome n1 h1
      obtain ⟨c2, hc2⟩ := hinv.bitSome n2 h2
      rw [lookupA_append_some _ _ _ _ hc1, lookupA_append_some _ _ _ _ hc2]
      have := hinv.inj n1 h1 n2 h2 hne hf1 hf2
      rw [hc1, hc2] at this
      exact this
    · obtain ⟨c1, hc1⟩ := hinv.bitSome n1 h1
      have hc1l : c1 ∈ st.live := hinv.liveCells n1 h1 hf1 c1 hc1
      rw [List.mem_singleton.mp h2]
      rw [lookupA_append_some _ _ _ _ hc1, hndlook]
      intro heq
      have : c1 = cell := by injection heq
      exact hnl (this ▸ hc1l)
    · obtain ⟨c2, hc2⟩ := hinv.bitSome n2 h2
      have hc2l : c2 ∈ st.live := hinv.liveCells n2 h2 hf2 c2 hc2
      rw [List.mem_singleton.mp h1]
      rw [lookupA_append_some _ _ _ _ hc2, hndlook]
      intro heq
      have : cell = c2 := by injection heq
      exact hnl (this ▸ hc2l)
    · rw [List.mem_singleton.mp h1, List.mem_singleton.mp h2] at hne
      exact absurd rfl hne
  · intro cl hcl
    rcases Finset.mem_insert.mp hcl with hcl | hcl
    · exact ⟨nd, List.mem_append_right _ (List.mem_singleton_self nd), hndfree,
        hcl ▸ hndlook⟩
    · obtain ⟨x, hx, hxf, hlx⟩ := hinv.liveOnly cl hcl
      exact ⟨x, List.mem_append_left _ hx, hxf, lookupA_append_some _ _ _ _ hlx⟩

/-- Serializer.alloc preserves the invariant: the allocated cell is the new
RAM cell (when the free list is empty, growing the RAM and the peak) or the
popped last free cell (never live); the peak stays equal to ram_size. -/
theorem serAlloc_inv {V : Type} {c : GCirc V} {alloced : List (GNode V)}
    {u : ℕ → ℕ} {st : SerSt} (hinv : SerInv c alloced u st) (nd : GNode V)
    (hfresh : ∀ x ∈ alloced, x.id ≠ nd.id) (hu0 : u nd.id = 0) :
    SerInv c (alloced ++ [nd]) u (serAlloc st nd.id) := by
  by_cases hfe : st.free.isEmpty
  · have hfree : st.free = [] := List.isEmpty_iff.mp hfe
    have hlive : st.live = Finset.range st.ramSize := by
      have h := hinv.unionRam
      rw [hfree] at h
      simpa using h
    have hs : serAlloc st nd.id =
        ⟨[], st.bitId ++ [(nd.id, st.ramSize)], st.ramSize + 1, st.nUsed, st.code,
          insert st.ramSize st.live, max st.peak (insert st.ramSize st.live).card⟩ := by
      simp [serAlloc, hfe, hfree]
    rw [hs]
    have hnl : st.ramSize ∉ st.live := by
      rw [hlive]
      simp
    have hcard : (insert st.ramSize st.live).card = st.ramSize + 1 := by
      rw [Finset.card_insert_of_not_mem hnl, hlive, Finset.card_range]
    refine serAlloc_generic hinv nd hfresh hu0 st.ramSize [] (st.ramSize + 1) _ _ hnl
      (by simp) (by simp) ?_ ?_
    · rw [hlive]
      simp [Finset.range_succ]
    · rw [hcard, hinv.peakRam]
      omega
  · have hne : st.free ≠ [] := by simpa [List.isEmpty_iff] using hfe
    have hfree : st.free.dropLast ++ [st.free.getLast hne] = st.free :=
      List.dropLast_append_getLast hne
    have hlast : st.free.getLast? = some (st.free.getLast hne) :=
      List.getLast?_eq_getLast st.free hne
    have hs : serAlloc st nd.id =
        ⟨st.free.dropLast, st.bitId ++ [(nd.id, st.free.getLast hne)], st.ramSize,
          st.nUsed, st.code, insert (st.free.getLast hne) st.live,
          max st.peak (insert (st.free.getLast hne) st.live).card⟩ := by
      simp [serAlloc, hfe, hlast]
    rw [hs]
    have hcellfree : st.free.getLast hne ∈ st.free := List.getLast_mem hne
    have hnl : st.free.getLast hne ∉ st.live := hinv.freeDisj _ hcellfree
    have hnotdl : st.free.getLast hne ∉ st.free.dropLast := by
      intro hmem
      have hnodup := hinv.freeNodup
      rw [← hfree] at hnodup
      rcases List.nodup_append.mp hnodup with ⟨-, -, hdisj⟩
      exact hdisj hmem (List.mem_singleton_self _)
    have htofin : st.free.toFinset = insert (st.free.getLast hne) st.free.dropLast.toFinset := by
      have h1 : (st.free.dropLast ++ [st.free.getLast hne]).toFinset = st.free.toFinset :=
        congrArg List.toFinset hfree
      rw [← h1, List.toFinset_append]
      ext a
      simp [or_comm]
    refine serAlloc_generic hinv nd hfresh hu0 (st.free.getLast hne) st.free.dropLast
      st.ramSize _ _ hnl ?_ ?_ ?_ ?_
    · exact (List.dropLast_sublist st.free).nodup hinv.freeNodup
    · intro x hx
      have hxf : x ∈ st.free := (List.dropLast_sublist st.free).mem hx
      have hxnl : x ∉ st.live := hinv.freeDisj x hxf
      intro hmem
      rcases Finset.mem_insert.mp hmem with he | hl
      · exact hnotdl (he ▸ hx)
      · exact hxnl hl
    · rw [Finset.insert_union, ← Finset.union_insert, ← htofin, hinv.unionRam]
    · have hdisj : Disjoint st.live st.free.toFinset := by
        rw [Finset.disjoint_right]
        intro a ha
        exact hinv.freeDisj a (List.mem_toFinset.mp ha)
      have hcardsum : st.live.card + st.free.toFinset.card = st.ramSize := by
        rw [← Finset.card_union_of_disjoint hdisj, hinv.unionRam, Finset.card_range]
      have hflen : 1 ≤ st.free.toFinset.card := by
        have : st.free.getLast hne ∈ st.free.toFinset := List.mem_toFinset.mpr hcellfree
        exact Finset.card_pos.mpr ⟨_, this⟩
      have hcard : (insert (st.free.getLast hne) st.live).card = st.live.card + 1 :=
        Finset.card_insert_of_not_mem hnl
      rw [hcard, hinv.peakRam]
      omega

theorem freedP_iff_of_eq {V : Type} (c : GCirc V) (u u' : ℕ → ℕ) (w : ℕ)
    (h : u w = u' w) : freedP c u w ↔ freedP c u' w := by
  unfold freedP
  rw [h]

/-- The per-argument bookkeeping of the serializer either just counts (while
more uses remain, or for an output node) or frees the argument's cell; in
all cases the invariant is preserved with the bumped use counter. -/
theorem serUseArg_inv {V : Type} {c : GCirc V} {alloced : List (GNode V)}
    {u : ℕ → ℕ} {st : SerSt} (hinv : SerInv c alloced u st) (v : ℕ)
    (hvmem : ∃ nd ∈ alloced, nd.id = v)
    (hlt : u v < outdeg c v) :
    ∃ st', serUseArg c st v = some st' ∧
      SerInv c alloced (fun k => if k = v then u v + 1 else u k) st' := by
  obtain ⟨ndv, hndv, rfl⟩ := hvmem
  have hle : u ndv.id + 1 ≤ outdeg c ndv.id := hlt
  have husedEq1 : ∀ k, lookupD (setA st.nUsed ndv.id (u ndv.id + 1)) k 0
      = if k = ndv.id then u ndv.id + 1 else u k := by
    intro k
    by_cases hk : k = ndv.id
    · subst hk
      rw [lookupD_setA_self, if_pos rfl]
    · rw [lookupD_setA_other _ _ _ _ hk, hinv.usedEq, if_neg hk]
  have hnfu : ¬ freedP c u ndv.id := by
    intro hf
    obtain ⟨-, -, h⟩ := hf
    omega
  have hother : ∀ w, w ≠ ndv.id →
      (freedP c (fun k => if k = ndv.id then u ndv.id + 1 else u k) w ↔ freedP c u w) := by
    intro w hw
    unfold freedP
    simp only [if_neg hw]
  by_cases hreach : u ndv.id + 1 = outdeg c ndv.id
  · by_cases hout : isOutputId c ndv.id
    · -- the counter reaches the degree but the node is an output: no free
      have hs : serUseArg c st ndv.id =
          some { st with nUsed := setA st.nUsed ndv.id (u ndv.id + 1) } := by
        simp only [serUseArg, hinv.usedEq]
        rw [if_pos hle, if_pos hreach, if_pos hout]
      refine ⟨_, hs, ?_⟩
      have hfr : ∀ w, freedP c (fun k => if k = ndv.id then u ndv.id + 1 else u k) w
          ↔ freedP c u w := by
        intro w
        by_cases hw : w = ndv.id
        · subst hw
          unfold freedP
          rw [hout]
          simp
        · exact hother w hw
      exact ⟨hinv.freeNodup, hinv.freeDisj, hinv.unionRam, hinv.peakRam, husedEq1,
        hinv.bitSome, hinv.bitNone,
        fun x hx hxf => hinv.liveCells x hx (fun hf => hxf ((hfr x.id).mpr hf)),
        fun n1 h1 n2 h2 hne hf1 hf2 =>
          hinv.inj n1 h1 n2 h2 hne (fun hf => hf1 ((hfr n1.id).mpr hf))
            (fun hf => hf2 ((hfr n2.id).mpr hf)),
        fun cl hcl => by
          obtain ⟨x, hx, hxf, hlx⟩ := hinv.liveOnly cl hcl
          exact ⟨x, hx, fun hf => hxf ((hfr x.id).mp hf), hlx⟩⟩
    · -- the counter reaches the degree and the node is not an output: free
      obtain ⟨cell, hcell⟩ := hinv.bitSome ndv hndv
      have hcelllive : cell ∈ st.live := hinv.liveCells ndv hndv hnfu cell hcell
      have hcellnotfree : cell ∉ st.free := fun hm => hinv.freeDisj cell hm hcelllive
      have hs : serUseArg c st ndv.id =
          some { st with
                 free := st.free ++ [cell]
                 nUsed := setA st.nUsed ndv.id (u ndv.id + 1)
                 live := st.live.erase cell } := by
        simp only [serUseArg, hinv.usedEq]
        rw [if_pos hle, if_pos hreach, if_neg hout]
        simp only [hcell]
      refine ⟨_, hs, ?_⟩
      have houtf : isOutputId c ndv.id = false := by
        simpa using hout
      have hfrid : freedP c (fun k => if k = ndv.id then u ndv.id + 1 else u k) ndv.id := by
        refine ⟨houtf, by omega, ?_⟩
        show (fun k => if k = ndv.id then u ndv.id + 1 else u k) ndv.id = outdeg c ndv.id
        simpa using hreach
      constructor
      · rw [List.nodup_append]
        exact ⟨hinv.freeNodup, List.nodup_singleton _,
          fun a ha hb => hcellnotfree ((List.mem_singleton.mp hb) ▸ ha)⟩
      · intro x hx
        rcases List.mem_append.mp hx with hx | hx
        · intro hm
          exact hinv.freeDisj x hx (Finset.mem_of_mem_erase hm)
        · rw [List.mem_singleton.mp hx]
          exact Finset.not_mem_erase _ _
      · have hset : st.live.erase cell ∪ (st.free ++ [cell]).toFinset
            = st.live ∪ st.free.toFinset := by
          ext a
          simp only [Finset.mem_union, Finset.mem_erase, List.toFinset_append,
            List.mem_toFinset, List.mem_singleton]
          constructor
          · rintro (⟨hne, hl⟩ | hf | rfl)
            · exact Or.inl hl
            · exact Or.inr hf
            · exact Or.inl hcelllive
          · rintro (hl | hf)
            · by_cases ha : a = cell
              · exact Or.inr (Or.inr ha)
              · exact Or.inl ⟨ha, hl⟩
            · exact Or.inr (Or.inl hf)
        rw [hset]
        exact hinv.unionRam
      · exact hinv.peakRam
      · exact husedEq1
      · exact hinv.bitSome
      · exact hinv.bitNone
      · intro x hx hxf cl hcl
        by_cases hxid : x.id = ndv.id
        · exact absurd (hxid ▸ hfrid) hxf
        · have hxfu : ¬ freedP c u x.id := fun hf => hxf ((hother x.id hxid).mpr hf)
          have hxl : cl ∈ st.live := hinv.liveCells x hx hxfu cl hcl
          have hclcell : cl ≠ cell := by
            intro he
            subst he
            have hinj := hinv.inj x hx ndv hndv hxid hxfu hnfu
            rw [hcl, hcell] at hinj
            exact hinj rfl
          exact Finset.mem_erase.mpr ⟨hclcell, hxl⟩
      · intro n1 h1 n2 h2 hne hf1 hf2
        by_cases h1id : n1.id = ndv.id
        · exact absurd (h1id ▸ hfrid) hf1
        · by_cases h2id : n2.id = ndv.id
          · exact absurd (h2id ▸ hfrid) hf2
          · exact hinv.inj n1 h1 n2 h2 hne
              (fun hf => hf1 ((hother n1.id h1id).mpr hf))
              (fun hf => hf2 ((hother n2.id h2id).mpr hf))
      · intro cl hcl
        have hclne : cl ≠ cell := (Finset.mem_erase.mp hcl).1
        have hcll : cl ∈ st.live := Finset.mem_of_mem_erase hcl
        obtain ⟨x, hx, hxf, hlx⟩ := hinv.liveOnly cl hcll
        have hxid : x.id ≠ ndv.id := by
          intro he
          rw [he, hcell] at hlx
          have hce : cell = cl := by injection hlx
          exact hclne hce.symm
        exact ⟨x, hx, fun hf => hxf ((hother x.id hxid).mp hf), hlx⟩
  · -- more uses remain: only the counter changes
    have hs : serUseArg c st ndv.id =
        some { st with nUsed := setA st.nUsed ndv.id (u ndv.id + 1) } := by
      simp only [serUseArg, hinv.usedEq]
      rw [if_pos hle, if_neg hreach]
    refine ⟨_, hs, ?_⟩
    have hfr : ∀ w, freedP c (fun k => if k = ndv.id then u ndv.id + 1 else u k) w
        ↔ freedP c u w := by
      intro w
      by_cases hw : w = ndv.id
      · subst hw
        unfold freedP
        have hb : (fun k => if k = ndv.id then u ndv.id + 1 else u k) ndv.id
            = u ndv.id + 1 := by simp
        rw [hb]
        constructor
        · rintro ⟨a, b, hc⟩
          exact absurd hc hreach
        · rintro ⟨a, b, hc⟩
          exact absurd hc (by omega)
      · exact hother w hw
    exact ⟨hinv.freeNodup, hinv.freeDisj, hinv.unionRam, hinv.peakRam, husedEq1,
      hinv.bitSome, hinv.bitNone,
      fun x hx hxf => hinv.liveCells x hx (fun hf => hxf ((hfr x.id).mpr hf)),
      fun n1 h1 n2 h2 hne hf1 hf2 =>
        hinv.inj n1 h1 n2 h2 hne (fun hf => hf1 ((hfr n1.id).mpr hf))
          (fun hf => hf2 ((hfr n2.id).mpr hf)),
      fun cl hcl => by
        obtain ⟨x, hx, hxf, hlx⟩ := hinv.liveOnly cl hcl
        exact ⟨x, hx, fun hf => hxf ((hfr x.id).mp hf), hlx⟩⟩

theorem unalloc0_append {V : Type} {A : List (GNode V)} {u : ℕ → ℕ}
    (nd : GNode V) (h : unalloc0 A u) : unalloc0 (A ++ [nd]) u := by
  intro k hk
  exact h k (fun x hx => hk x (List.mem_append_left _ hx))

/-- The invariant only reads the state fields other than the code, so it
survives any change of the emitted code. -/
theorem serInv_code {V : Type} {c : GCirc V} {alloced : List (GNode V)}
    {u : ℕ → ℕ} {st : SerSt} (l : List (ℕ × ℕ × List ℕ))
    (hinv : SerInv c alloced u st) :
    SerInv c alloced u { st with code := l } :=
  ⟨hinv.freeNodup, hinv.freeDisj, hinv.unionRam, hinv.peakRam, hinv.usedEq,
   hinv.bitSome, hinv.bitNone, hinv.liveCells, hinv.inj, hinv.liveOnly⟩

/-- The invariant holds at the start of the serialization: nothing is
allocated, no counter is set, the RAM is empty. -/
theorem serInv_init {V : Type} (c : GCirc V) :
    SerInv c [] (fun _ => 0) initSerSt := by
  refine ⟨?_, ?_, ?_, ?_, ?_, ?_, ?_, ?_, ?_, ?_⟩
  · exact List.nodup_nil
  · intro x hx
    simp [initSerSt] at hx
  · simp [initSerSt]
  · rfl
  · intro k
    rfl
  · intro nd hnd
    simp at hnd
  · intro k _
    rfl
  · intro nd hnd
    simp at hnd
  · intro n1 h1
    simp at h1
  · intro cell hcell
    simp [initSerSt] at hcell

theorem mapM_length {α β : Type} (f : α → Option β) :
    ∀ (l : List α) (out : List β), l.mapM f = some out → out.length = l.length := by
  intro l
  induction l with
  | nil =>
    intro out h
    rw [List.mapM_nil] at h
    cases h
    rfl
  | cons a l ih =>
    intro out h
    rw [List.mapM_cons] at h
    cases hf : f a with
    | none => rw [hf] at h; simp at h
    | some b =>
      rw [hf] at h
      simp only [Option.bind_eq_bind, Option.some_bind] at h
      cases hm : l.mapM f with
      | none => rw [hm] at h; simp at h
      | some bs =>
        rw [hm] at h
        simp only [Option.bind_eq_bind, Option.some_bind] at h
        cases h
        simp [ih bs hm]

/-- Folding the per-argument bookkeeping over a list of already-allocated
arguments preserves the invariant (for the suitably bumped counters). -/
theorem serUseArgs_fold {V : Type} {c : GCirc V} {alloced : List (GNode V)} :
    ∀ (args : List ℕ) (u : ℕ → ℕ) (st st' : SerSt),
      SerInv c alloced u st → unalloc0 alloced u →
      (∀ v ∈ args, ∃ nd ∈ alloced, nd.id = v) →
      List.foldlM (serUseArg c) st args = some st' →
      ∃ u', SerInv c alloced u' st' ∧ unalloc0 alloced u' := by
  intro args
  induction args with
  | nil =>
    intro u st st' hinv hun _ hs
    rw [List.foldlM_nil] at hs
    cases hs
    exact ⟨u, hinv, hun⟩
  | cons v args ih =>
    intro u st st' hinv hun hmem hs
    rw [List.foldlM_cons] at hs
    cases h1 : serUseArg c st v with
    | none =>
      rw [h1] at hs
      simp at hs
    | some st1 =>
      rw [h1] at hs
      simp only [Option.bind_eq_bind, Option.some_bind] at hs
      obtain ⟨ndv, hndv, hid⟩ := hmem v (List.mem_cons_self v args)
      have hlt : u v < outdeg c v := by
        by_contra hge
        have hnone : serUseArg c st v = none := by
          simp only [serUseArg, hinv.usedEq]
          rw [if_neg (by omega)]
        rw [hnone] at h1
        cases h1
      obtain ⟨st2, hs2, hinv2⟩ := serUseArg_inv hinv v ⟨ndv, hndv, hid⟩ hlt
      have hst : st1 = st2 := by
        rw [h1] at hs2
        exact Option.some.inj hs2
      have hun2 : unalloc0 alloced (fun k => if k = v then u v + 1 else u k) := by
        intro k hk
        have hkv : k ≠ v := fun he => (hk ndv hndv) (he ▸ hid)
        simp only [if_neg hkv]
        exact hun k hk
      exact ih _ st1 st' (hst ▸ hinv2) hun2
        (fun w hw => hmem w (List.mem_cons_of_mem v hw)) hs

/-- Visiting one fresh node whose arguments are all already allocated
preserves the invariant. -/
theorem serVisit_inv {V : Type} {c : GCirc V} {alloced : List (GNode V)}
    {u : ℕ → ℕ} {st st' : SerSt} (hinv : SerInv c alloced u st)
    (hun : unalloc0 alloced u) (nd : GNode V)
    (hfresh : ∀ x ∈ alloced, x.id ≠ nd.id)
    (hargs : ∀ v ∈ nd.incoming, ∃ x ∈ alloced, x.id = v)
    (hs : serVisit c st nd = some st') :
    ∃ u', SerInv c (alloced ++ [nd]) u' st' ∧ unalloc0 (alloced ++ [nd]) u' := by
  have hu0 : u nd.id = 0 := hun nd.id hfresh
  have hinv1 : SerInv c (alloced ++ [nd]) u (serAlloc st nd.id) :=
    serAlloc_inv hinv nd hfresh hu0
  have hun1 : unalloc0 (alloced ++ [nd]) u := unalloc0_append nd hun
  cases hin : nd.isINPUT with
  | true =>
    have he : serVisit c st nd = some (serAlloc st nd.id) := by
      simp [serVisit, hin]
    rw [he] at hs
    obtain rfl := Option.some.inj hs
    exact ⟨u, hinv1, hun1⟩
  | false =>
    cases hop : opmapLookup nd.op.name with
    | none =>
      exfalso
      have he : serVisit c st nd = none := by
        simp [serVisit, hin, hop]
      rw [he] at hs
      cases hs
    | some opc =>
      have he : serVisit c st nd = List.foldlM (serUseArg c)
          { serAlloc st nd.id with code := (serAlloc st nd.id).code ++
              [(opc, lookupD (serAlloc st nd.id).bitId nd.id 0,
                nd.incoming.map (fun i => lookupD (serAlloc st nd.id).bitId i 0))] }
          nd.incoming := by
        simp [serVisit, hin, hop]
      rw [he] at hs
      refine serUseArgs_fold nd.incoming u _ st' (serInv_code _ hinv1) hun1 ?_ hs
      intro v hv
      obtain ⟨x, hx, hxe⟩ := hargs v hv
      exact ⟨x, List.mem_append_left _ hx, hxe⟩

/-- Folding the node visits over the remaining nodes of a well-formed
circuit, starting from an invariant state for the already visited prefix,
yields an invariant state for the whole circuit. -/
theorem serVisits_fold {V : Type} [Inhabited V] {c : GCirc V} (hwf : GWF c) :
    ∀ (rest done : List (GNode V)), c.nodes = done ++ rest →
      ∀ (u : ℕ → ℕ) (st st' : SerSt), SerInv c done u st → unalloc0 done u →
      List.foldlM (serVisit c) st rest = some st' →
      ∃ u', SerInv c c.nodes u' st' := by
  intro rest
  induction rest with
  | nil =>
    intro done hsplit u st st' hinv _ hs
    rw [List.foldlM_nil] at hs
    cases hs
    rw [List.append_nil] at hsplit
    exact ⟨u, hsplit ▸ hinv⟩
  | cons nd rest ih =>
    intro done hsplit u st st' hinv hun hs
    rw [List.foldlM_cons] at hs
    cases h1 : serVisit c st nd with
    | none =>
      rw [h1] at hs
      simp at hs
    | some st1 =>
      rw [h1] at hs
      simp only [Option.bind_eq_bind, Option.some_bind] at hs
      have hids : c.ids = done.map (fun x => x.id)
          ++ (nd :: rest).map (fun x => x.id) := by
        unfold GCirc.ids
        rw [hsplit, List.map_append]
      have hdisj : (done.map (fun x => x.id)).Disjoint
          ((nd :: rest).map (fun x => x.id)) := by
        have h := hwf.idsNodup
        rw [hids] at h
        exact List.disjoint_of_nodup_append h
      have hfresh : ∀ x ∈ done, x.id ≠ nd.id := by
        intro x hx he
        apply hdisj (List.mem_map.mpr ⟨x, hx, rfl⟩)
        rw [he]
        exact List.mem_map.mpr ⟨nd, List.mem_cons_self nd rest, rfl⟩
      have hargs : ∀ v ∈ nd.incoming, ∃ x ∈ done, x.id = v := by
        intro v hv
        have hp : done.length ∈ List.range c.nodes.length := by
          refine List.mem_range.mpr ?_
          rw [hsplit, List.length_append, List.length_cons]
          omega
        have hget : c.nodes.getD done.length default = nd := by
          rw [hsplit, List.getD_eq_getElem?_getD,
            List.getElem?_append_right (le_refl done.length)]
          simp
        have hmem := hwf.topo done.length hp v (by rw [hget]; exact hv)
        rw [hsplit, List.take_left] at hmem
        rcases List.mem_map.mp hmem with ⟨x, hx, rfl⟩
        exact ⟨x, hx, rfl⟩
      obtain ⟨u1, hinv1, hun1⟩ := serVisit_inv hinv hun nd hfresh hargs h1
      exact ih (done ++ [nd]) (by rw [hsplit, List.append_assoc]; rfl)
        u1 st1 st' hinv1 hun1 hs

/-- Inversion of a successful serialization: the node fold succeeded, the
address reads succeeded, the regression asserts passed, and the result is
assembled from the final state. -/
theorem serializeRaw_inv {V : Type} (c : GCirc V) (res : SerRes)
    (h : serializeRaw c = some res) :
    ∃ stF inAddr outAddr,
      List.foldlM (serVisit c) initSerSt c.nodes = some stF ∧
      c.inputs.mapM (fun i => lookupA stF.bitId i) = some inAddr ∧
      c.outputs.mapM (fun o => lookupA stF.bitId o) = some outAddr ∧
      inAddr.dedup.length = c.inputs.length ∧
      outAddr.dedup.length = c.outputs.length ∧
      res = ⟨c.inputs.length, c.outputs.length, stF.code.length, stF.ramSize,
             stF.peak, inAddr, outAddr, stF.code⟩ := by
  unfold serializeRaw at h
  split at h
  · cases h
  · rename_i stF hfold
    split at h
    · rename_i inAddr outAddr hinA houtA
      split at h
      · rename_i hded
        exact ⟨stF, inAddr, outAddr, hfold, hinA, houtA, hded.1, hded.2,
          (Option.some.inj h).symm⟩
      · cases h
    · cases h

/-- C7: for every well-formed circuit the RawSerializer accepts, ram_size
equals the peak number of simultaneously live cells, distinct input nodes
occupy distinct cells and distinct output nodes occupy distinct cells;
concretely, serializing the circuit y = (a AND b) XOR c emits exactly the
two instructions AND then XOR with ram_size 4, and executing the emitted
program on a = 1, b = 1, c = 0 leaves 1 in the output cell. -/
theorem claim_C7 {V : Type} [Inhabited V] (c : GCirc V) (hwf : GWF c)
    (res : SerRes) (h : serializeRaw c = some res) :
    (res.ramSize = res.peak ∧ res.inputAddr.Nodup ∧ res.outputAddr.Nodup) ∧
    serializeRaw andXorCirc = some serResAX ∧
    (execProg serResAX.code [1, 1, 0, 0]).getD 1 0 = 1 := by
  obtain ⟨stF, inAddr, outAddr, hfold, hinA, houtA, hd1, hd2, hres⟩ :=
    serializeRaw_inv c res h
  subst hres
  refine ⟨⟨?_, ?_, ?_⟩, rfl, rfl⟩
  · obtain ⟨u', hinvF⟩ := serVisits_fold hwf c.nodes [] rfl (fun _ => 0)
      initSerSt stF (serInv_init c) (fun k _ => rfl) hfold
    exact hinvF.peakRam.symm
  · have hlen : inAddr.length = c.inputs.length := mapM_length _ _ _ hinA
    have hdd : inAddr.dedup = inAddr :=
      (List.dedup_sublist inAddr).eq_of_length (by rw [hd1, hlen])
    rw [← hdd]
    exact List.nodup_dedup inAddr
  · have hlen : outAddr.length = c.outputs.length := mapM_length _ _ _ houtA
    have hdd : outAddr.dedup = outAddr :=
      (List.dedup_sublist outAddr).eq_of_length (by rw [hd2, hlen])
    rw [← hdd]
    exact List.nodup_dedup outAddr

/-- C7 witness: the serializer guarantees applied to the concrete circuit
y = (a AND b) XOR c. -/
theorem claim_C7_witness :
    (serResAX.ramSize = serResAX.peak ∧ serResAX.inputAddr.Nodup ∧
      serResAX.outputAddr.Nodup) ∧
    serializeRaw andXorCirc = some serResAX ∧
    (execProg serResAX.code [1, 1, 0, 0]).getD 1 0 = 1 :=
  claim_C7 andXorCirc (by constructor <;> decide) serResAX rfl
